import Mathlib

/-!
# Fourier epicycles: resampling, transform, coefficient set and trace

A shallow embedding of `src/fourier.mjs` (`drawSvg`, `parseSVGPath`, `distance`,
`resamplePath`, `dft`, `setup`, `calcAlpha`, `lerp`, `animate`, `drawEpicycles`) and the
properties of it that are proved here. Strings are lists of
characters, the parsed coordinates are exact rationals (with `NaN` and the infinities), and the
numeric pipeline runs over the real numbers: every statement about it is a statement over exact
arithmetic. The loops that need not end (`while` in `resamplePath`) take a fuel argument.

Modelling choices:
* `Math.sqrt`, `Math.cos`, `Math.sin` are the real functions, `Math.atan2(y, x)` is the
  argument of `x + i y`, and `Math.pow(a, 2)` is `a ^ 2`;
* `Array.prototype.sort` is a stable insertion sort (`jsSort`);
* a division by zero leaves the real numbers: in `resamplePath` the quotient `interval` is
  then `none`, in `setup` the scale is an extended real and a run whose scale or coordinates
  are not finite ends as `SetupResult.nonFinite`;
* `pointAtArclength`, `interpolate` are the specification side of the resampler, and
  `dftComplex`, `sampleComplex` name the complex numbers behind `dft` in the proofs;
* `drawSvg` starts from the attribute `d` the document gives, and returns the alert shown and
  the state posted to the worker; `animate` is one frame, and a frame that throws is `none`;
* the indices of `animate` are integers, `%` is the remainder with the sign of the dividend
  (`jsRem`), and a read of `pathTrace` outside the array gives `undefined` (`traceAt`).
-/

namespace Fourier

/-- A JavaScript number over exact arithmetic: NaN, the two infinities, or a finite value. -/
inductive JSNumber where
  | nan
  | posInf
  | negInf
  | fin (q : ℚ)
  deriving DecidableEq

/-- The test `isNaN(v)`. -/
def JSNumber.isNaN : JSNumber → Bool
  | .nan => true
  | _ => false

/-- A vertex as pushed by `parseSVGPath`: `{ x: coords[i], y: coords[i + 1] }`. -/
structure RawVertex where
  x : JSNumber
  y : JSNumber
  deriving DecidableEq

/-- Code points matched by `\s` and stripped by `trim`. -/
def isJSWhiteSpace (c : Char) : Bool :=
  let n := c.toNat
  n == 9 || n == 10 || n == 11 || n == 12 || n == 13 || n == 32 || n == 0xA0 || n == 0x1680
    || (0x2000 ≤ n && n ≤ 0x200A) || n == 0x2028 || n == 0x2029 || n == 0x202F
    || n == 0x205F || n == 0x3000 || n == 0xFEFF

/-- The method `String.prototype.trim`. -/
def jsTrim (s : List Char) : List Char :=
  ((s.dropWhile isJSWhiteSpace).reverse.dropWhile isJSWhiteSpace).reverse

/-- The call `d.replace(/[MmLl]/g, ' & ')`. -/
def replaceCommands : List Char → List Char
  | [] => []
  | c :: cs =>
    if c = 'M' ∨ c = 'm' ∨ c = 'L' ∨ c = 'l' then ' ' :: '&' :: ' ' :: replaceCommands cs
    else c :: replaceCommands cs

/-- The call `.replace(/Z/gi, '')`. -/
def removeClose (s : List Char) : List Char :=
  s.filter fun c => !(c == 'Z' || c == 'z')

/-- The call `.split('&')`; `cur` is the piece being read, reversed. -/
def splitAmp : List Char → List Char → List (List Char)
  | cur, [] => [cur.reverse]
  | cur, c :: cs => if c = '&' then cur.reverse :: splitAmp [] cs else splitAmp (c :: cur) cs

/-- The separator class `[,\s]`. -/
def isCoordSep (c : Char) : Bool := c == ',' || isJSWhiteSpace c

/-- The call `.split(/[,\s]+/)`: `inSep` says that the previous character was a separator of the
run being skipped, `cur` is the token being read, reversed. -/
def splitCoords : Bool → List Char → List Char → List (List Char)
  | _, cur, [] => [cur.reverse]
  | inSep, cur, c :: cs =>
    if isCoordSep c then
      if inSep then splitCoords true [] cs else cur.reverse :: splitCoords true [] cs
    else splitCoords false (c :: cur) cs

/-- The decimal digits `0` to `9`. -/
def isDecDigit (c : Char) : Bool := '0'.toNat ≤ c.toNat && c.toNat ≤ '9'.toNat

/-- Value of a hexadecimal, octal, binary or decimal digit below `base`. -/
def digitValue (base : Nat) (c : Char) : Option Nat :=
  let n := c.toNat
  let v : Option Nat :=
    if 48 ≤ n ∧ n ≤ 57 then some (n - 48)
    else if 97 ≤ n ∧ n ≤ 102 then some (n - 87)
    else if 65 ≤ n ∧ n ≤ 70 then some (n - 55)
    else none
  match v with
  | some d => if d < base then some d else none
  | none => none

/-- Value of a digit string in `base`; `none` when a character is not a digit of that base. -/
def digitsValue (base : Nat) : Nat → List Char → Option Nat
  | acc, [] => some acc
  | acc, c :: cs =>
    match digitValue base c with
    | some d => digitsValue base (base * acc + d) cs
    | none => none

/-- A non-empty digit string in `base`. -/
def nonEmptyDigits (base : Nat) (s : List Char) : Option Nat :=
  match s with
  | [] => none
  | _ => digitsValue base 0 s

/-- The grammar's `ExponentPart`, optional: what follows the mantissa. -/
def parseExponent : List Char → Option ℤ
  | [] => some 0
  | c :: rest =>
    if c = 'e' ∨ c = 'E' then
      match rest with
      | '+' :: ds => (nonEmptyDigits 10 ds).map fun n => (n : ℤ)
      | '-' :: ds => (nonEmptyDigits 10 ds).map fun n => -(n : ℤ)
      | ds => (nonEmptyDigits 10 ds).map fun n => (n : ℤ)
    else none

/-- The value `m * 10 ^ e` of a decimal literal. -/
def scale10 (m : Nat) (e : ℤ) : ℚ :=
  match e with
  | Int.ofNat k => ((m * 10 ^ k : Nat) : ℚ)
  | Int.negSucc k => mkRat m (10 ^ (k + 1))

/-- The grammar's `StrUnsignedDecimalLiteral` without `Infinity`. -/
def parseUnsignedDecimal (s : List Char) : Option ℚ :=
  let ip := s.takeWhile isDecDigit
  let r1 := s.dropWhile isDecDigit
  let fp := match r1 with
    | '.' :: r => r.takeWhile isDecDigit
    | _ => []
  let r2 := match r1 with
    | '.' :: r => r.dropWhile isDecDigit
    | _ => r1
  if ip = [] ∧ fp = [] then none
  else
    match digitsValue 10 0 (ip ++ fp), parseExponent r2 with
    | some m, some e => some (scale10 m (e - fp.length))
    | _, _ => none

/-- The grammar's `StrDecimalLiteral` after the sign. -/
def parseUnsigned (s : List Char) : Option JSNumber :=
  if s = "Infinity".toList then some .posInf
  else (parseUnsignedDecimal s).map .fin

/-- The unary minus of a number. -/
def JSNumber.neg : JSNumber → JSNumber
  | .nan => .nan
  | .posInf => .negInf
  | .negInf => .posInf
  | .fin q => .fin (-q)

/-- The conversion `Number(s)` of a string (`StringToNumber`). -/
def Number (s : List Char) : JSNumber :=
  match jsTrim s with
  | [] => .fin 0
  | '0' :: 'x' :: ds | '0' :: 'X' :: ds =>
    match nonEmptyDigits 16 ds with | some n => .fin n | none => .nan
  | '0' :: 'o' :: ds | '0' :: 'O' :: ds =>
    match nonEmptyDigits 8 ds with | some n => .fin n | none => .nan
  | '0' :: 'b' :: ds | '0' :: 'B' :: ds =>
    match nonEmptyDigits 2 ds with | some n => .fin n | none => .nan
  | '+' :: t => (parseUnsigned t).getD .nan
  | '-' :: t => ((parseUnsigned t).map JSNumber.neg).getD .nan
  | t => (parseUnsigned t).getD .nan

/-- The loop `for (let i = 0; i < coords.length; i += 2)`: a missing `coords[i + 1]` is
`undefined`, for which `isNaN` is true. -/
def pairCoords : List JSNumber → List RawVertex
  | a :: b :: rest =>
    if !a.isNaN && !b.isNaN then ⟨a, b⟩ :: pairCoords rest else pairCoords rest
  | _ => []

/-- Function `parseSVGPath`. -/
def parseSVGPath (d : String) : List RawVertex :=
  let pathCommands := jsTrim (removeClose (replaceCommands d.toList))
  let pointsStr := (splitAmp [] pathCommands).filter fun s => jsTrim s != []
  let vertices := pointsStr.flatMap fun ps => pairCoords ((splitCoords false [] (jsTrim ps)).map Number)
  if d.toList.any (fun c => c == 'Z' || c == 'z') && vertices.length > 0 then
    vertices ++ vertices.take 1
  else vertices


/-- A point `{ x, y }` with real coordinates: the arithmetic of the pipeline over exact reals. -/
structure Vertex where
  x : ℝ
  y : ℝ

/-- A coefficient `{ freq, amp, phase }`. -/
structure Coeff where
  freq : ℤ
  amp : ℝ
  phase : ℝ

/-- The object `state.canvasSize`. -/
structure CanvasSize where
  width : ℝ
  height : ℝ

/-- The object `state` built by `drawSvg`; `fourierCoeffs` is `none` while it is `null`. -/
structure State where
  pathTrace : List Vertex
  fourierCoeffs : Option (List Coeff)
  numSamples : ℕ
  canvasSize : CanvasSize

noncomputable section

/-- Function `distance`. -/
def distance (p1 p2 : Vertex) : ℝ :=
  Real.sqrt ((p1.x - p2.x) ^ 2 + (p1.y - p2.y) ^ 2)

/-- The first loop of `resamplePath` (lines 69-72), `acc` being `totalLength` so far. -/
def totalLengthFrom (acc : ℝ) : List Vertex → ℝ
  | p1 :: p2 :: rest => totalLengthFrom (acc + distance p1 p2) (p2 :: rest)
  | _ => acc

/-- The value of `totalLength` after the first loop of `resamplePath`. -/
def totalLength (vertices : List Vertex) : ℝ := totalLengthFrom 0 vertices

/-- The variables the `while` loop of `resamplePath` (lines 86-105) reads and writes. -/
structure WalkState where
  p1 : Vertex
  segmentDist : ℝ
  currentPosOnSegment : ℝ
  distSinceLastSample : ℝ
  newPoints : List Vertex

/-- One pass through the body of the `while` loop (lines 87-104). The value `interval` is
`none` when `totalLength / (n - 1)` divides by zero: the quotient is then `Infinity` or `NaN`,
and the test `distToNextSample <= remainingDistOnSegment` is false. -/
def whileBody (interval : Option ℝ) (p2 : Vertex) (s : WalkState) : WalkState :=
  let remainingDistOnSegment := s.segmentDist - s.currentPosOnSegment
  let noSample : WalkState :=
    ⟨s.p1, s.segmentDist, s.segmentDist, s.distSinceLastSample + remainingDistOnSegment,
      s.newPoints⟩
  match interval with
  | none => noSample
  | some iv =>
    let distToNextSample := iv - s.distSinceLastSample
    if distToNextSample ≤ remainingDistOnSegment then
      let ratio := distToNextSample / s.segmentDist
      let newPoint : Vertex :=
        ⟨s.p1.x + (p2.x - s.p1.x) * ratio, s.p1.y + (p2.y - s.p1.y) * ratio⟩
      ⟨newPoint, distance newPoint p2, 0, 0, s.newPoints ++ [newPoint]⟩
    else noSample

/-- The `while (currentPosOnSegment < segmentDist)` loop, run for at most `fuel` passes;
`none` when the passes run out before the loop condition fails. -/
def whileLoop (interval : Option ℝ) (p2 : Vertex) : ℕ → WalkState → Option WalkState
  | 0, s => if s.currentPosOnSegment < s.segmentDist then none else some s
  | fuel + 1, s =>
    if s.currentPosOnSegment < s.segmentDist then
      whileLoop interval p2 fuel (whileBody interval p2 s)
    else some s

/-- The second `for` loop of `resamplePath` (lines 78-106) over the segments that remain,
carrying `distSinceLastSample` and `newPoints`. -/
def walkSegments (fuel : ℕ) (interval : Option ℝ) :
    List Vertex → ℝ × List Vertex → Option (ℝ × List Vertex)
  | p1 :: p2 :: rest, (distSinceLastSample, newPoints) =>
    let segmentDist := distance p1 p2
    if segmentDist = 0 then walkSegments fuel interval (p2 :: rest) (distSinceLastSample, newPoints)
    else
      match whileLoop interval p2 fuel ⟨p1, segmentDist, 0, distSinceLastSample, newPoints⟩ with
      | none => none
      | some s => walkSegments fuel interval (p2 :: rest) (s.distSinceLastSample, s.newPoints)
  | _, acc => some acc

/-- The loop `while (newPoints.length < n) newPoints.push(last)` (lines 107-109). -/
def padPoints (n : ℕ) (last : Vertex) (newPoints : List Vertex) : List Vertex :=
  newPoints ++ List.replicate (n - newPoints.length) last

/-- Function `resamplePath`; `fuel` bounds the passes of each inner `while` loop, and the
result is `none` when a loop does not end within it. -/
def resamplePath (fuel : ℕ) (vertices : List Vertex) (n : ℕ) : Option (List Vertex) :=
  match vertices with
  | [] => some vertices
  | [_] => some vertices
  | v0 :: v1 :: rest =>
    let interval : Option ℝ :=
      if (n : ℝ) - 1 = 0 then none else some (totalLength vertices / ((n : ℝ) - 1))
    match walkSegments fuel interval vertices (0, [v0]) with
    | none => none
    | some (_, newPoints) =>
      some ((padPoints n ((v1 :: rest).getLast (List.cons_ne_nil v1 rest)) newPoints).take n)

/-- The function `Math.atan2(y, x)` over exact reals: the angle in `(-π, π]` of the point
`(x, y)`, and `0` at the origin. -/
def atan2 (y x : ℝ) : ℝ := Complex.arg ⟨x, y⟩

/-- The inner loop of `dft` (lines 118-124) for output index `k`: the pair
`(sum_re, sum_im)` before the division by `N`. -/
def dftSums (points : List Vertex) (k : ℕ) : ℝ × ℝ :=
  (List.range points.length).foldl
    (fun (acc : ℝ × ℝ) (n : ℕ) =>
      let angle := (2 * Real.pi * k * n) / points.length
      let p := points.getD n ⟨0, 0⟩
      (acc.1 + (p.x * Real.cos angle + p.y * Real.sin angle),
        acc.2 + (-p.x * Real.sin angle + p.y * Real.cos angle)))
    (0, 0)

/-- Function `dft`. -/
def dft (points : List Vertex) : List Coeff :=
  (List.range points.length).map fun k =>
    let sum_re := (dftSums points k).1 / points.length
    let sum_im := (dftSums points k).2 / points.length
    ⟨k, Real.sqrt (sum_re * sum_re + sum_im * sum_im), atan2 sum_im sum_re⟩

end

/-- The expression `i > N / 2 ? i - N : i` of `setup` (line 169). -/
def remapFreq (N i : ℕ) : ℤ :=
  if (i : ℚ) > (N : ℚ) / 2 then (i : ℤ) - (N : ℤ) else (i : ℤ)

noncomputable section

/-- The loop of `setup` that builds `mappedCoeffs` (lines 166-171). -/
def mapCoeffs (allCoeffs : List Coeff) : List Coeff :=
  (List.range allCoeffs.length).map fun i =>
    let c := allCoeffs.getD i ⟨0, 0, 0⟩
    ⟨remapFreq allCoeffs.length i, c.amp, c.phase⟩

/-- Insertion of `a` into a list sorted by the comparator `cmp`: before the first `b` with
`cmp a b ≤ 0`. -/
def sortInsert {α : Type} (cmp : α → α → ℝ) (a : α) : List α → List α
  | [] => [a]
  | b :: l => if cmp a b ≤ 0 then a :: b :: l else b :: sortInsert cmp a l

/-- The method `Array.prototype.sort(cmp)` of the JavaScript runtime, a stable sort: elements
the comparator ties keep their order. -/
def jsSort {α : Type} (cmp : α → α → ℝ) : List α → List α
  | [] => []
  | a :: l => sortInsert cmp a (jsSort cmp l)

/-- The value stored in `state.fourierCoeffs` (line 173). -/
def filterAndSort (mappedCoeffs : List Coeff) : List Coeff :=
  jsSort (fun a b => b.amp - a.amp) (mappedCoeffs.filter fun x => decide (x.amp ≥ 0.02))

/-- The body of the trace loop of `setup` for sample `j` (lines 177-186). -/
def tracePoint (fourierCoeffs : List Coeff) (canvasSize : CanvasSize) (numSamples j : ℕ) :
    Vertex :=
  let time := j * (2 * Real.pi) / numSamples
  fourierCoeffs.foldl
    (fun (p : Vertex) (c : Coeff) =>
      let angle := c.freq * time + c.phase
      ⟨p.x + c.amp * Real.cos angle, p.y + c.amp * Real.sin angle⟩)
    ⟨canvasSize.width / 2, canvasSize.height / 2⟩

/-- The trace loop of `setup` (lines 175-188): the array stored in `state.pathTrace`. -/
def buildTrace (fourierCoeffs : List Coeff) (canvasSize : CanvasSize) (numSamples : ℕ) :
    List Vertex :=
  (List.range numSamples).map fun j => tracePoint fourierCoeffs canvasSize numSamples j

/-- Lines 166-189 of `setup`: what it stores in `state` once `allCoeffs` is computed. -/
def storeCoeffsAndTrace (allCoeffs : List Coeff) (state : State) : State :=
  let fourierCoeffs := filterAndSort (mapCoeffs allCoeffs)
  ⟨buildTrace fourierCoeffs state.canvasSize state.numSamples, some fourierCoeffs,
    state.numSamples, state.canvasSize⟩

/-- The real vertex of a parsed one; `none` when a coordinate is not finite. -/
def RawVertex.toVertex : RawVertex → Option Vertex
  | ⟨.fin a, .fin b⟩ => some ⟨(a : ℝ), (b : ℝ)⟩
  | _ => none

/-- The real vertices of a parsed list; `none` when some coordinate is not finite. -/
def toVertices : List RawVertex → Option (List Vertex)
  | [] => some []
  | r :: rs =>
    match r.toVertex, toVertices rs with
    | some v, some vs => some (v :: vs)
    | _, _ => none

/-- The object `bounds` of `setup`, its fields starting at `Infinity` and `-Infinity`. -/
structure Bounds where
  minX : EReal
  maxX : EReal
  minY : EReal
  maxY : EReal

/-- The `reduce` call of `setup` (lines 145-148). -/
def computeBounds (rawVertices : List Vertex) : Bounds :=
  rawVertices.foldl
    (fun (acc : Bounds) (p : Vertex) =>
      ⟨min acc.minX (p.x : EReal), max acc.maxX (p.x : EReal),
        min acc.minY (p.y : EReal), max acc.maxY (p.y : EReal)⟩)
    ⟨⊤, ⊥, ⊤, ⊥⟩

/-- The quotient `a / b` of JavaScript for real `a` and `b` with `b` not negative: a division
by zero gives `Infinity`, `-Infinity` or `NaN` (here `none`). -/
def jsDiv (a b : ℝ) : Option EReal :=
  if b = 0 then (if a = 0 then none else if 0 < a then some ⊤ else some ⊥)
  else some ((a / b : ℝ) : EReal)

/-- The function `Math.min` of two values: `NaN` when either is. -/
def jsMin : Option EReal → Option EReal → Option EReal
  | some a, some b => some (min a b)
  | _, _ => none

/-- The value `scale` of `setup` (lines 155-157); `none` when it is not finite. -/
def computeScale (canvasSize : CanvasSize) (bounds : Bounds) : Option ℝ :=
  let scaleX := jsDiv canvasSize.width (bounds.maxX.toReal - bounds.minX.toReal)
  let scaleY := jsDiv canvasSize.height (bounds.maxY.toReal - bounds.minY.toReal)
  match jsMin scaleX scaleY with
  | none => none
  | some m => if m = ⊤ ∨ m = ⊥ then none else some (m.toReal * 0.8)

/-- How a call of `setup` ends. -/
inductive SetupResult where
  /-- The early `return` after the alert of line 141: `state` is left as it was. -/
  | alerted
  /-- A coordinate or the scale is `Infinity` or `NaN`: the run leaves exact real arithmetic. -/
  | nonFinite
  /-- A `while` loop of `resamplePath` did not end within the fuel. -/
  | outOfFuel
  /-- The function ran to its end with this `state`. -/
  | done (state : State)

/-- Function `setup`. -/
def setup (fuel : ℕ) (svgPathData : String) (state : State) : SetupResult :=
  let parsed := parseSVGPath svgPathData
  if parsed.length = 0 then .alerted
  else
    match toVertices parsed with
    | none => .nonFinite
    | some rawVertices =>
      let bounds := computeBounds rawVertices
      let centerX := (bounds.minX.toReal + bounds.maxX.toReal) / 2
      let centerY := (bounds.minY.toReal + bounds.maxY.toReal) / 2
      let centeredVertices := rawVertices.map fun p => (⟨p.x - centerX, p.y - centerY⟩ : Vertex)
      match computeScale state.canvasSize bounds with
      | none => .nonFinite
      | some scale =>
        let scaledVertices := centeredVertices.map fun p => (⟨p.x * scale, p.y * scale⟩ : Vertex)
        match resamplePath fuel scaledVertices state.numSamples with
        | none => .outOfFuel
        | some sampledPoints => .done (storeCoeffsAndTrace (dft sampledPoints) state)

/-- A call on the drawing context made by `drawEpicycles`. -/
inductive CanvasOp where
  | setStrokeStyle (style : String)
  | setLineWidth (w : ℝ)
  | beginPath
  | moveTo (x y : ℝ)
  | lineTo (x y : ℝ)
  | arc (x y radius startAngle endAngle : ℝ)
  | stroke

/-- The first loop of `drawEpicycles` (lines 258-268): the circles. -/
def drawCircles (fourierCoeffs : List Coeff) (time x y : ℝ) : List CanvasOp × ℝ × ℝ :=
  fourierCoeffs.foldl
    (fun (acc : List CanvasOp × ℝ × ℝ) (c : Coeff) =>
      let prev_x := acc.2.1
      let prev_y := acc.2.2
      let angle := c.freq * time + c.phase
      (acc.1 ++ [CanvasOp.moveTo (prev_x + c.amp) prev_y,
          CanvasOp.arc prev_x prev_y c.amp 0 (2 * Real.pi)],
        prev_x + c.amp * Real.cos angle, prev_y + c.amp * Real.sin angle))
    ([], x, y)

/-- The second loop of `drawEpicycles` (lines 275-285): the arms. -/
def drawArms (fourierCoeffs : List Coeff) (time x y : ℝ) : List CanvasOp × ℝ × ℝ :=
  fourierCoeffs.foldl
    (fun (acc : List CanvasOp × ℝ × ℝ) (c : Coeff) =>
      let prev_x := acc.2.1
      let prev_y := acc.2.2
      let angle := c.freq * time + c.phase
      let x := prev_x + c.amp * Real.cos angle
      let y := prev_y + c.amp * Real.sin angle
      (acc.1 ++ [CanvasOp.moveTo prev_x prev_y, CanvasOp.lineTo x y], x, y))
    ([], x, y)

/-- Function `drawEpicycles`: the calls made on `ctx` and the last values of `x` and `y`, the
end of the chain of arms; `none` when `state.fourierCoeffs` is `null`. -/
def drawEpicycles (x y : ℝ) (state : State) (frame : ℕ) (dpr : ℝ) :
    Option (List CanvasOp × Vertex) :=
  match state.fourierCoeffs with
  | none => none
  | some fourierCoeffs =>
    let time := frame * (2 * Real.pi) / state.numSamples
    let circles := drawCircles fourierCoeffs time x y
    let arms :=
      drawArms fourierCoeffs time (state.canvasSize.width / 2) (state.canvasSize.height / 2)
    some
      ([CanvasOp.setStrokeStyle "rgba(255, 255, 255, 0.2)", CanvasOp.setLineWidth (1 / dpr),
          CanvasOp.beginPath] ++ circles.1 ++
        [CanvasOp.stroke, CanvasOp.setStrokeStyle "rgba(255, 255, 255, 0.5)",
          CanvasOp.beginPath] ++ arms.1 ++ [CanvasOp.stroke],
        ⟨arms.2.1, arms.2.2⟩)

/-- The point at the fraction `ratio` of the way from `p1` to `p2`. -/
def interpolate (p1 p2 : Vertex) (ratio : ℝ) : Vertex :=
  ⟨p1.x + (p2.x - p1.x) * ratio, p1.y + (p2.y - p1.y) * ratio⟩

/-- Specification side of the resampler, after the words of the design: the point of the
polyline at arclength `s` from its first vertex, by linear interpolation inside the segment
that contains it (the last vertex once `s` is past the end). -/
def pointAtArclength : List Vertex → ℝ → Vertex
  | [], _ => ⟨0, 0⟩
  | [p], _ => p
  | p1 :: p2 :: rest, s =>
    if s ≤ distance p1 p2 then
      if distance p1 p2 = 0 then p1 else interpolate p1 p2 (s / distance p1 p2)
    else pointAtArclength (p2 :: rest) (s - distance p1 p2)

/-- The complex number `sum_re + i sum_im` of `dft` at index `k`, after the division by `N`. -/
def dftComplex (points : List Vertex) (k : ℕ) : ℂ :=
  ⟨(dftSums points k).1 / points.length, (dftSums points k).2 / points.length⟩

/-- The sample `points[n]` as the complex number `x + i y`. -/
def sampleComplex (points : List Vertex) (n : ℕ) : ℂ :=
  ⟨(points.getD n ⟨0, 0⟩).x, (points.getD n ⟨0, 0⟩).y⟩

end

/-- The array `pointsStr` of `parseSVGPath` (lines 44-45): the chunks between the move and
line commands that are not blank. -/
def pointChunks (d : String) : List (List Char) :=
  (splitAmp [] (jsTrim (removeClose (replaceCommands d.toList)))).filter fun s => jsTrim s != []

/-- The array `coords` of one chunk `ps` (line 49). -/
def chunkCoords (ps : List Char) : List JSNumber :=
  (splitCoords false [] (jsTrim ps)).map Number

/-- The value of `vertices` in `parseSVGPath` after the `forEach` (lines 47-55), before the
close marker is looked at. -/
def parsedVertices (d : String) : List RawVertex :=
  (pointChunks d).flatMap fun ps => pairCoords (chunkCoords ps)

/-- Specification side of the pairing: the tokens of a chunk taken two by two in order, the
last one alone when their number is odd. -/
def positionalPairs : List JSNumber → List (JSNumber × Option JSNumber)
  | a :: b :: rest => (a, some b) :: positionalPairs rest
  | [a] => [(a, none)]
  | [] => []

/-- Specification side of the pairing: the vertex of a pair whose two tokens both are
numbers, nothing for any other pair. -/
def pairVertex : JSNumber × Option JSNumber → Option RawVertex
  | (a, some b) => if a.isNaN || b.isNaN then none else some ⟨a, b⟩
  | (_, none) => none

/-- The two alerts of the loading code: the one of `drawSvg` (line 35) and the one of
`setup` (line 141). -/
inductive Alert where
  | noPathElement
  | noCoordinates
  deriving DecidableEq

/-- What `drawSvg` has done when it returns: the alert it showed, and the state it posted to
the worker it created (`none` when it created no worker). -/
structure DrawSvgResult where
  alert : Option Alert
  posted : Option State

noncomputable section

/-- Function `drawSvg`, from what the document gives: `pathData` is the attribute `d` of its
first `path` element (`none` without such an element or attribute), `width` and `height` are
the size of the canvas. The result is `none` when `setup` leaves exact arithmetic or runs out
of fuel. -/
def drawSvg (fuel : ℕ) (pathData : Option String) (width height : ℝ) : Option DrawSvgResult :=
  let state : State := ⟨[], none, 2000, ⟨width, height⟩⟩
  match pathData with
  | none => some ⟨some Alert.noPathElement, none⟩
  | some d =>
    match setup fuel d state with
    | SetupResult.alerted => some ⟨some Alert.noCoordinates, some state⟩
    | SetupResult.done st' => some ⟨none, some st'⟩
    | SetupResult.nonFinite => none
    | SetupResult.outOfFuel => none

end

/-- The constant `gradients` of `animate`. -/
def gradients : ℕ := 64 * 2

/-- The remainder `a % b` of JavaScript on integers, with the sign of the dividend; `none`
stands for `NaN`, the remainder by zero. -/
def jsRem (a b : ℤ) : Option ℤ := if b = 0 then none else some (Int.tmod a b)

/-- The values of `i` in a loop `for (let i = a; i <= b; i++)`. -/
def forRange (a b : ℤ) : List ℤ :=
  (List.range (b + 1 - a).toNat).map fun (t : ℕ) => a + (t : ℤ)

/-- The index `start` of `animate` (line 242) for segment `c`. -/
def segmentStart (numSamples frame c : ℕ) : Option ℤ :=
  let diff : ℕ := numSamples / gradients
  let l : ℕ := gradients - c
  jsRem ((frame : ℤ) - (l : ℤ) * (diff : ℤ) + (numSamples : ℤ)) (numSamples : ℤ)

/-- The indices `idx` of the inner loop of `animate` (lines 244-247) for segment `c`. -/
def segmentIndices (numSamples frame c : ℕ) : List (Option ℤ) :=
  let diff : ℕ := numSamples / gradients
  let l : ℕ := gradients - c
  (forRange ((frame : ℤ) - (l : ℤ) * (diff : ℤ)) ((frame : ℤ) - ((l : ℤ) - 1) * (diff : ℤ))).map
    fun i => jsRem (i + (numSamples : ℤ)) (numSamples : ℤ)

/-- Every index at which one call of `animate` reads `state.pathTrace`, in order: index `0`
(line 226), then for each segment its `start` and its `idx` values. -/
def animateReads (numSamples frame : ℕ) : List (Option ℤ) :=
  some 0 :: (List.range gradients).flatMap fun c =>
    segmentStart numSamples frame c :: segmentIndices numSamples frame c

/-- The read `state.pathTrace[idx]`: `none` for `undefined`, what an index that is negative,
`NaN` or past the end gives. -/
def traceAt (pathTrace : List Vertex) (idx : Option ℤ) : Option Vertex :=
  match idx with
  | some i => if 0 ≤ i then pathTrace[i.toNat]? else none
  | none => none

/-- A call on the drawing context made by `animate`; `epicycles` holds the calls made inside
`drawEpicycles`, `setStrokeRgba` the assignment of the `rgba(...)` string to `strokeStyle`. -/
inductive FrameOp where
  | clearRect (x y w h : ℝ)
  | epicycles (ops : List CanvasOp)
  | beginPath
  | setLineWidth (w : ℝ)
  | setStrokeRgba (r g b alpha : ℝ)
  | moveTo (x y : ℝ)
  | lineTo (x y : ℝ)
  | stroke

noncomputable section

/-- Function `calcAlpha`. -/
def calcAlpha (x : ℝ) : ℝ := 1 - (2 : ℝ) ^ (-10 * x)

/-- Function `lerp` on two colours `0xRRGGBB`: the channels `r`, `g`, `b`. -/
def lerp (x y : ℕ) (t : ℝ) : ℝ × ℝ × ℝ :=
  let x_r : ℕ := x >>> 16
  let x_g : ℕ := (x >>> 8) &&& 0xFF
  let x_b : ℕ := x &&& 0xFF
  let y_r : ℕ := y >>> 16
  let y_g : ℕ := (y >>> 8) &&& 0xFF
  let y_b : ℕ := y &&& 0xFF
  ((x_r : ℝ) + t * ((y_r : ℝ) - (x_r : ℝ)), (x_g : ℝ) + t * ((y_g : ℝ) - (x_g : ℝ)),
    (x_b : ℝ) + t * ((y_b : ℝ) - (x_b : ℝ)))

/-- The calls `ctx.lineTo(state.pathTrace[idx].x, state.pathTrace[idx].y)` of one segment;
`none` when a read gives `undefined`, whose `.x` throws. -/
def lineTos (pathTrace : List Vertex) : List (Option ℤ) → Option (List FrameOp)
  | [] => some []
  | idx :: rest =>
    match traceAt pathTrace idx, lineTos pathTrace rest with
    | some p, some ops => some (FrameOp.lineTo p.x p.y :: ops)
    | _, _ => none

/-- One pass of the loop over the gradient segments of `animate` (lines 229-248). -/
def drawSegment (state : State) (frame : ℕ) (dpr : ℝ) (c : ℕ) : Option (List FrameOp) :=
  let alpha := calcAlpha (((c : ℝ) + 1) / (gradients : ℝ))
  let rgb := lerp 0xbe4ffe 0xfe00cb ((c : ℝ) / (gradients : ℝ))
  match traceAt state.pathTrace (segmentStart state.numSamples frame c),
      lineTos state.pathTrace (segmentIndices state.numSamples frame c) with
  | some p, some ops =>
    some ([FrameOp.beginPath, FrameOp.setLineWidth (2 / dpr),
        FrameOp.setStrokeRgba rgb.1 rgb.2.1 rgb.2.2 alpha, FrameOp.moveTo p.x p.y] ++ ops ++
      [FrameOp.stroke])
  | _, _ => none

/-- The loop `for (let c = 0; c < gradients; c++)` of `animate` over the segments `cs`. -/
def drawSegments (state : State) (frame : ℕ) (dpr : ℝ) : List ℕ → Option (List FrameOp)
  | [] => some []
  | c :: cs =>
    match drawSegment state frame dpr c, drawSegments state frame dpr cs with
    | some ops, some more => some (ops ++ more)
    | _, _ => none

/-- Function `animate`, one frame of it: the calls made on `ctx`, or `none` when the frame
throws (a read of `state.fourierCoeffs` that is `null`, or of an entry of `state.pathTrace`
that is `undefined`). The call of `requestAnimationFrame`, which schedules the frame
`frame + 1`, is not part of the result. -/
def animate (state : State) (frame : ℕ) (dpr : ℝ) : Option (List FrameOp) :=
  let startX := state.canvasSize.width / 2
  let startY := state.canvasSize.height / 2
  match drawEpicycles startX startY state frame dpr with
  | none => none
  | some drawn =>
    match traceAt state.pathTrace (some 0),
        drawSegments state frame dpr (List.range gradients) with
    | some p, some ops =>
      some ([FrameOp.clearRect 0 0 state.canvasSize.width state.canvasSize.height,
          FrameOp.epicycles drawn.1, FrameOp.moveTo p.x p.y] ++ ops)
    | _, _ => none

end

/-! ## The resampler -/

theorem distance_nonneg (p q : Vertex) : 0 ≤ distance p q := Real.sqrt_nonneg _

theorem eq_of_distance_eq_zero (p q : Vertex) (h : distance p q = 0) : p = q := by
  unfold distance at h
  have h0 : (p.x - q.x) ^ 2 + (p.y - q.y) ^ 2 = 0 :=
    (Real.sqrt_eq_zero (by positivity)).mp h
  have hx : p.x - q.x = 0 := by nlinarith [sq_nonneg (p.x - q.x), sq_nonneg (p.y - q.y)]
  have hy : p.y - q.y = 0 := by nlinarith [sq_nonneg (p.x - q.x), sq_nonneg (p.y - q.y)]
  cases p; cases q
  simp only [Vertex.mk.injEq]
  simp only at hx hy
  constructor <;> linarith

theorem distance_interpolate (p1 p2 : Vertex) (r : ℝ) (hr : r ≤ 1) :
    distance (interpolate p1 p2 r) p2 = (1 - r) * distance p1 p2 := by
  unfold distance interpolate
  have h : (p1.x + (p2.x - p1.x) * r - p2.x) ^ 2 + (p1.y + (p2.y - p1.y) * r - p2.y) ^ 2
      = (1 - r) ^ 2 * ((p1.x - p2.x) ^ 2 + (p1.y - p2.y) ^ 2) := by ring
  simp only [h]
  rw [Real.sqrt_mul (sq_nonneg _), Real.sqrt_sq (by linarith)]

theorem totalLengthFrom_eq (acc : ℝ) (vs : List Vertex) :
    totalLengthFrom acc vs = acc + totalLength vs := by
  unfold totalLength
  induction vs generalizing acc with
  | nil => simp [totalLengthFrom]
  | cons p vs ih =>
    cases vs with
    | nil => simp [totalLengthFrom]
    | cons q vs =>
      simp only [totalLengthFrom]
      rw [ih (acc + distance p q), ih (0 + distance p q)]
      ring

theorem totalLength_cons_cons (p q : Vertex) (vs : List Vertex) :
    totalLength (p :: q :: vs) = distance p q + totalLength (q :: vs) := by
  show totalLengthFrom (0 + distance p q) (q :: vs) = _
  rw [totalLengthFrom_eq, zero_add]

theorem totalLength_nonneg (vs : List Vertex) : 0 ≤ totalLength vs := by
  induction vs with
  | nil => simp [totalLength, totalLengthFrom]
  | cons p vs ih =>
    cases vs with
    | nil => simp [totalLength, totalLengthFrom]
    | cons q vs =>
      rw [totalLength_cons_cons]
      have := distance_nonneg p q
      linarith

theorem pointAtArclength_zero (p : Vertex) (vs : List Vertex) :
    pointAtArclength (p :: vs) 0 = p := by
  cases vs with
  | nil => rfl
  | cons q vs =>
    unfold pointAtArclength
    rw [if_pos (distance_nonneg p q)]
    split_ifs
    · rfl
    · simp [interpolate]

theorem getLast_of_totalLength_eq_zero (p : Vertex) (vs : List Vertex)
    (h : totalLength (p :: vs) = 0) : (p :: vs).getLast (List.cons_ne_nil p vs) = p := by
  induction vs generalizing p with
  | nil => rfl
  | cons q vs ih =>
    rw [totalLength_cons_cons] at h
    have h1 := distance_nonneg p q
    have h2 := totalLength_nonneg (q :: vs)
    have hd : distance p q = 0 := by linarith
    have ht : totalLength (q :: vs) = 0 := by linarith
    rw [List.getLast_cons (List.cons_ne_nil q vs), ih q ht]
    exact (eq_of_distance_eq_zero p q hd).symm

theorem pointAtArclength_totalLength (p : Vertex) (vs : List Vertex) :
    pointAtArclength (p :: vs) (totalLength (p :: vs))
      = (p :: vs).getLast (List.cons_ne_nil p vs) := by
  induction vs generalizing p with
  | nil => rfl
  | cons q vs ih =>
    rw [totalLength_cons_cons, List.getLast_cons (List.cons_ne_nil q vs)]
    unfold pointAtArclength
    have h2 := totalLength_nonneg (q :: vs)
    split_ifs with h hd
    · have ht : totalLength (q :: vs) = 0 := by linarith
      rw [getLast_of_totalLength_eq_zero q vs ht]
      exact eq_of_distance_eq_zero p q hd
    · have ht : totalLength (q :: vs) = 0 := by linarith
      rw [getLast_of_totalLength_eq_zero q vs ht, ht, add_zero, div_self hd]
      simp [interpolate]
    · rw [add_sub_cancel_left]
      exact ih q

theorem pointAtArclength_rebase (p1 p2 : Vertex) (rest : List Vertex) (a s : ℝ)
    (had : a ≤ distance p1 p2) (hd : distance p1 p2 ≠ 0) (hs : 0 ≤ s) :
    pointAtArclength (p1 :: p2 :: rest) (a + s)
      = pointAtArclength (interpolate p1 p2 (a / distance p1 p2) :: p2 :: rest) s := by
  have hdpos : 0 < distance p1 p2 := lt_of_le_of_ne (distance_nonneg _ _) (Ne.symm hd)
  have hr : a / distance p1 p2 ≤ 1 := (div_le_one hdpos).mpr had
  have hd' : distance (interpolate p1 p2 (a / distance p1 p2)) p2 = distance p1 p2 - a := by
    rw [distance_interpolate _ _ _ hr]
    field_simp
  unfold pointAtArclength
  rw [hd']
  by_cases hle : a + s ≤ distance p1 p2
  · rw [if_pos hle, if_neg hd, if_pos (by linarith)]
    split_ifs with h0
    · have hs0 : s = 0 := by linarith
      rw [hs0, add_zero]
    · simp only [interpolate]
      congr 1 <;> field_simp <;> ring
  · rw [if_neg hle, if_neg (by linarith)]
    congr 1
    ring

theorem whileLoop_done (interval : Option ℝ) (p2 : Vertex) (fuel : ℕ) (s : WalkState)
    (h : ¬ s.currentPosOnSegment < s.segmentDist) : whileLoop interval p2 fuel s = some s := by
  cases fuel <;> simp [whileLoop, h]

theorem whileLoop_samples (δ : ℝ) (hδ : 0 < δ) (p2 : Vertex) (rest : List Vertex) (m : ℕ) :
    ∀ (fuel : ℕ) (p1 : Vertex) (dist : ℝ) (pts : List Vertex),
      0 ≤ dist → dist < δ → (m : ℝ) * δ ≤ distance p1 p2 + dist →
      distance p1 p2 + dist < ((m : ℝ) + 1) * δ → m + 1 ≤ fuel →
      ∃ s : WalkState,
        whileLoop (some δ) p2 fuel ⟨p1, distance p1 p2, 0, dist, pts⟩ = some s ∧
        s.distSinceLastSample = distance p1 p2 + dist - m * δ ∧
        s.newPoints = pts ++ (List.range m).map fun (k : ℕ) =>
          pointAtArclength (p1 :: p2 :: rest) (δ - dist + (k : ℝ) * δ) := by
  induction m with
  | zero =>
    intro fuel p1 dist pts h0 h1 _ hhi hfuel
    simp only [Nat.cast_zero, zero_mul, zero_add, one_mul, sub_zero] at *
    by_cases hd : (0 : ℝ) < distance p1 p2
    · obtain ⟨f, rfl⟩ : ∃ f, fuel = f + 1 := ⟨fuel - 1, by omega⟩
      have hno : ¬ (δ - dist ≤ distance p1 p2 - 0) := by
        rw [sub_zero]; intro h; linarith
      refine ⟨⟨p1, distance p1 p2, distance p1 p2, dist + (distance p1 p2 - 0), pts⟩, ?_, ?_, ?_⟩
      · rw [whileLoop, if_pos hd]
        have hb : whileBody (some δ) p2 ⟨p1, distance p1 p2, 0, dist, pts⟩
            = ⟨p1, distance p1 p2, distance p1 p2, dist + (distance p1 p2 - 0), pts⟩ := by
          simp only [whileBody]
          rw [if_neg hno]
        rw [hb]
        exact whileLoop_done _ _ _ _ (lt_irrefl _)
      · show dist + (distance p1 p2 - 0) = _
        ring
      · simp
    · refine ⟨⟨p1, distance p1 p2, 0, dist, pts⟩, whileLoop_done _ _ _ _ hd, ?_, by simp⟩
      have := distance_nonneg p1 p2
      have hz : distance p1 p2 = 0 := le_antisymm (not_lt.mp hd) this
      show dist = _
      rw [hz, zero_add]
  | succ m ih =>
    intro fuel p1 dist pts h0 h1 hlo hhi hfuel
    push_cast at hlo hhi
    obtain ⟨f, rfl⟩ : ∃ f, fuel = f + 1 := ⟨fuel - 1, by omega⟩
    have hm : (0 : ℝ) ≤ m := Nat.cast_nonneg m
    have hle : δ - dist ≤ distance p1 p2 - 0 := by
      rw [sub_zero]; nlinarith
    have hd : (0 : ℝ) < distance p1 p2 := by rw [sub_zero] at hle; linarith
    have hdne : distance p1 p2 ≠ 0 := ne_of_gt hd
    have hle' : δ - dist ≤ distance p1 p2 := by rw [sub_zero] at hle; exact hle
    have hratio : (δ - dist) / distance p1 p2 ≤ 1 := (div_le_one hd).mpr hle'
    have hnew : distance (interpolate p1 p2 ((δ - dist) / distance p1 p2)) p2
        = distance p1 p2 - (δ - dist) := by
      rw [distance_interpolate _ _ _ hratio]
      field_simp
    have hb : whileBody (some δ) p2 ⟨p1, distance p1 p2, 0, dist, pts⟩
        = ⟨interpolate p1 p2 ((δ - dist) / distance p1 p2),
            distance (interpolate p1 p2 ((δ - dist) / distance p1 p2)) p2, 0, 0,
            pts ++ [interpolate p1 p2 ((δ - dist) / distance p1 p2)]⟩ := by
      simp only [whileBody]
      rw [if_pos hle]
      rfl
    obtain ⟨s, hs, hdist, hpts⟩ := ih f (interpolate p1 p2 ((δ - dist) / distance p1 p2)) 0
      (pts ++ [interpolate p1 p2 ((δ - dist) / distance p1 p2)]) le_rfl hδ
      (by rw [hnew]; linarith) (by rw [hnew]; linarith) (by omega)
    refine ⟨s, ?_, ?_, ?_⟩
    · rw [whileLoop, if_pos hd, hb]
      exact hs
    · rw [hdist, hnew]
      push_cast
      ring
    · rw [hpts, List.range_succ_eq_map, List.map_cons, List.map_map, List.append_assoc,
        List.singleton_append]
      congr 2
      · simp only [Nat.cast_zero, zero_mul, add_zero]
        unfold pointAtArclength
        rw [if_pos hle', if_neg hdne]
      · refine List.map_congr_left fun k _ => ?_
        simp only [Function.comp_apply, sub_zero]
        have hk : (0 : ℝ) ≤ k := Nat.cast_nonneg k
        rw [← pointAtArclength_rebase p1 p2 rest (δ - dist) (δ + k * δ) hle' hdne
          (by nlinarith)]
        congr 1
        push_cast
        ring


theorem walkSegments_samples (δ : ℝ) (hδ : 0 < δ) (fuel : ℕ) :
    ∀ (vs : List Vertex) (M : ℕ) (dist : ℝ) (pts : List Vertex),
      0 ≤ dist → dist < δ → (M : ℝ) * δ ≤ totalLength vs + dist →
      totalLength vs + dist < ((M : ℝ) + 1) * δ → M + 1 ≤ fuel →
      ∃ dist' : ℝ,
        walkSegments fuel (some δ) vs (dist, pts)
          = some (dist', pts ++ (List.range M).map fun (k : ℕ) =>
              pointAtArclength vs (δ - dist + (k : ℝ) * δ)) := by
  intro vs
  induction vs with
  | nil =>
    intro M dist pts h0 h1 hlo _ _
    have hM : M = 0 := by
      have h : totalLength ([] : List Vertex) = 0 := rfl
      rw [h, zero_add] at hlo
      have : (M : ℝ) < 1 := by
        by_contra hc
        have : (1 : ℝ) ≤ M := not_lt.mp hc
        nlinarith
      exact_mod_cast Nat.lt_one_iff.mp (by exact_mod_cast this)
    subst hM
    exact ⟨dist, by simp [walkSegments]⟩
  | cons p1 vs ih =>
    cases vs with
    | nil =>
      intro M dist pts h0 h1 hlo _ _
      have hM : M = 0 := by
        have h : totalLength [p1] = 0 := rfl
        rw [h, zero_add] at hlo
        have : (M : ℝ) < 1 := by
          by_contra hc
          have : (1 : ℝ) ≤ M := not_lt.mp hc
          nlinarith
        exact_mod_cast Nat.lt_one_iff.mp (by exact_mod_cast this)
      subst hM
      exact ⟨dist, by simp [walkSegments]⟩
    | cons p2 rest =>
      intro M dist pts h0 h1 hlo hhi hfuel
      rw [totalLength_cons_cons] at hlo hhi
      have hdn := distance_nonneg p1 p2
      have htn := totalLength_nonneg (p2 :: rest)
      by_cases hd : distance p1 p2 = 0
      · obtain ⟨dist', hw⟩ := ih M dist pts h0 h1 (by linarith) (by linarith) hfuel
        refine ⟨dist', ?_⟩
        rw [walkSegments, if_pos hd, hw]
        congr 3
        refine List.map_congr_left fun k _ => ?_
        have hk : (0 : ℝ) ≤ k := Nat.cast_nonneg k
        have hpos : ¬ (δ - dist + (k : ℝ) * δ ≤ distance p1 p2) := by
          rw [hd]; intro h; nlinarith
        conv_rhs => unfold pointAtArclength
        rw [if_neg hpos, hd, sub_zero]
      · have hdpos : 0 < distance p1 p2 := lt_of_le_of_ne hdn (Ne.symm hd)
        have hq : 0 ≤ (distance p1 p2 + dist) / δ := by positivity
        set m := ⌊(distance p1 p2 + dist) / δ⌋₊ with hm
        have hmlo : (m : ℝ) * δ ≤ distance p1 p2 + dist :=
          (le_div_iff₀ hδ).mp (Nat.floor_le hq)
        have hmhi : distance p1 p2 + dist < ((m : ℝ) + 1) * δ :=
          (div_lt_iff₀ hδ).mp (Nat.lt_floor_add_one _)
        have hmM : m ≤ M := by
          have : (m : ℝ) < (M : ℝ) + 1 := by
            by_contra hc
            have : (M : ℝ) + 1 ≤ m := not_lt.mp hc
            nlinarith
          have : m < M + 1 := by exact_mod_cast this
          omega
        obtain ⟨s, hs, hdist, hpts⟩ := whileLoop_samples δ hδ p2 rest m fuel p1 dist pts h0 h1
          hmlo hmhi (by omega)
        have hcast : ((M - m : ℕ) : ℝ) = (M : ℝ) - m := by
          rw [Nat.cast_sub hmM]
        obtain ⟨dist', hw⟩ := ih (M - m) s.distSinceLastSample s.newPoints
          (by rw [hdist]; linarith) (by rw [hdist]; linarith)
          (by rw [hdist, hcast]; linarith) (by rw [hdist, hcast]; linarith) (by omega)
        refine ⟨dist', ?_⟩
        rw [walkSegments, if_neg hd, hs]
        simp only
        rw [hw, hpts]
        congr 2
        have hMm : M = m + (M - m) := by omega
        conv_rhs => rw [hMm, List.range_add, List.map_append, List.map_map]
        rw [List.append_assoc]
        congr 2
        refine List.map_congr_left fun k _ => ?_
        have hk : (0 : ℝ) ≤ k := Nat.cast_nonneg k
        simp only [Function.comp_apply]
        have hpos : ¬ (δ - dist + ((m + k : ℕ) : ℝ) * δ ≤ distance p1 p2) := by
          push_cast; intro h; nlinarith
        conv_rhs => unfold pointAtArclength
        rw [if_neg hpos, hdist]
        congr 1
        push_cast
        ring

theorem resamplePath_eq (v0 v1 : Vertex) (rest : List Vertex) (n fuel : ℕ)
    (hL : 0 < totalLength (v0 :: v1 :: rest)) (hn : 2 ≤ n) (hf : n ≤ fuel) :
    resamplePath fuel (v0 :: v1 :: rest) n
      = some ((List.range n).map fun (k : ℕ) =>
          pointAtArclength (v0 :: v1 :: rest)
            ((k : ℝ) * totalLength (v0 :: v1 :: rest) / ((n : ℝ) - 1))) := by
  have hn1 : (0 : ℝ) < (n : ℝ) - 1 := by
    have : (2 : ℝ) ≤ n := by exact_mod_cast hn
    linarith
  have hne : ¬ ((n : ℝ) - 1 = 0) := ne_of_gt hn1
  set L := totalLength (v0 :: v1 :: rest) with hLdef
  have hδ : 0 < L / ((n : ℝ) - 1) := div_pos hL hn1
  have hcast : ((n - 1 : ℕ) : ℝ) = (n : ℝ) - 1 := by
    rw [Nat.cast_sub (by omega)]; simp
  have hMδ : ((n - 1 : ℕ) : ℝ) * (L / ((n : ℝ) - 1)) = L := by
    rw [hcast]; field_simp
  obtain ⟨dist', hw⟩ := walkSegments_samples (L / ((n : ℝ) - 1)) hδ fuel (v0 :: v1 :: rest)
    (n - 1) 0 [v0] le_rfl hδ (by rw [hMδ]; linarith)
    (by rw [add_mul, hMδ]; linarith) (by omega)
  unfold resamplePath
  simp only [if_neg hne]
  rw [← hLdef, hw]
  simp only
  have hlen : ([v0] ++ (List.range (n - 1)).map fun (k : ℕ) =>
      pointAtArclength (v0 :: v1 :: rest) (L / ((n : ℝ) - 1) - 0 + (k : ℝ) * (L / ((n : ℝ) - 1)))).length
      = n := by
    simp; omega
  rw [padPoints, hlen, Nat.sub_self, List.replicate_zero, List.append_nil,
    List.take_of_length_le (le_of_eq hlen)]
  congr 1
  have hr : List.range n = List.range 1 ++ (List.range (n - 1)).map (1 + ·) := by
    rw [← List.range_add]
    congr 1
    omega
  rw [hr, List.map_append, List.map_map]
  congr 1
  · have h1 : List.range 1 = [0] := rfl
    rw [h1, List.map_cons, List.map_nil, Nat.cast_zero, zero_mul, zero_div, pointAtArclength_zero]
  · refine List.map_congr_left fun k _ => ?_
    show pointAtArclength _ _ = pointAtArclength _ _
    congr 1
    push_cast
    field_simp
    ring

theorem length_resamplePath (fuel : ℕ) (v0 v1 : Vertex) (rest : List Vertex) (n : ℕ)
    (pts : List Vertex) (h : resamplePath fuel (v0 :: v1 :: rest) n = some pts) :
    pts.length = n := by
  unfold resamplePath at h
  simp only at h
  split at h
  · exact absurd h (by simp)
  · rename_i d newPoints _
    simp only [Option.some.injEq] at h
    rw [← h]
    simp [padPoints]
    omega

theorem distance_same_y (a b c : ℝ) : distance ⟨a, b⟩ ⟨c, b⟩ = |a - c| := by
  simp [distance, Real.sqrt_sq_eq_abs]

theorem distance_same_x (a b c : ℝ) : distance ⟨a, b⟩ ⟨a, c⟩ = |b - c| := by
  simp [distance, Real.sqrt_sq_eq_abs]

theorem totalLength_pos_of_ne (p q : Vertex) (rest : List Vertex) (h : p ≠ q) :
    0 < totalLength (p :: q :: rest) := by
  rw [totalLength_cons_cons]
  have h1 : 0 < distance p q :=
    lt_of_le_of_ne (distance_nonneg p q) fun h0 => h (eq_of_distance_eq_zero p q h0.symm)
  have := totalLength_nonneg (q :: rest)
  linarith

/-- Claim C1 (resampling count invariant): for a vertex list with at least 2 vertices and
non-zero total length and every `n ≥ 2`, `resamplePath` returns, and what it returns has
exactly `n` points: with fuel `n` or more the loops end with such a list, and whatever fuel
lets them end gives a list of length `n`. -/
theorem resamplePath_count (vertices : List Vertex) (n : ℕ) (hlen : 2 ≤ vertices.length)
    (hL : totalLength vertices ≠ 0) (hn : 2 ≤ n) :
    (∀ fuel : ℕ, n ≤ fuel →
      ∃ pts : List Vertex, resamplePath fuel vertices n = some pts ∧ pts.length = n) ∧
    (∀ (fuel : ℕ) (pts : List Vertex), resamplePath fuel vertices n = some pts →
      pts.length = n) := by
  obtain ⟨v0, v1, rest, rfl⟩ : ∃ v0 v1 rest, vertices = v0 :: v1 :: rest := by
    match vertices, hlen with
    | v0 :: v1 :: rest, _ => exact ⟨v0, v1, rest, rfl⟩
  have hpos : 0 < totalLength (v0 :: v1 :: rest) :=
    lt_of_le_of_ne (totalLength_nonneg _) (Ne.symm hL)
  refine ⟨fun fuel hf => ⟨_, resamplePath_eq v0 v1 rest n fuel hpos hn hf, by simp⟩, ?_⟩
  intro fuel pts h
  exact length_resamplePath fuel v0 v1 rest n pts h

/-- Witness of C1: the segment from `(0, 0)` to `(1, 0)` resampled to 2 points. -/
theorem resamplePath_count_witness :
    2 ≤ ([⟨0, 0⟩, ⟨1, 0⟩] : List Vertex).length ∧ totalLength [⟨0, 0⟩, ⟨1, 0⟩] ≠ 0 ∧ 2 ≤ 2 ∧
    ((∀ fuel : ℕ, 2 ≤ fuel →
      ∃ pts : List Vertex, resamplePath fuel [⟨0, 0⟩, ⟨1, 0⟩] 2 = some pts ∧ pts.length = 2) ∧
    (∀ (fuel : ℕ) (pts : List Vertex), resamplePath fuel [⟨0, 0⟩, ⟨1, 0⟩] 2 = some pts →
      pts.length = 2)) :=
  ⟨by decide, by norm_num [totalLength, totalLengthFrom, distance_same_y], le_rfl,
    resamplePath_count [⟨0, 0⟩, ⟨1, 0⟩] 2 (by decide)
      (by norm_num [totalLength, totalLengthFrom, distance_same_y]) le_rfl⟩

/-- Claim C6 (arclength-uniform spacing): for a polyline with at least 2 vertices and total
length `L > 0` and every `n ≥ 2`, over exact arithmetic `resamplePath` returns the `n` points
of the polyline at arclengths `k * L / (n - 1)`, `k = 0, ..., n - 1`, each by linear
interpolation inside its segment; point `0` is the first vertex and point `n - 1` is the last
vertex. -/
theorem resamplePath_arclength (vertices : List Vertex) (n fuel : ℕ)
    (hlen : 2 ≤ vertices.length) (hL : 0 < totalLength vertices) (hn : 2 ≤ n) (hf : n ≤ fuel) :
    resamplePath fuel vertices n
      = some ((List.range n).map fun (k : ℕ) =>
          pointAtArclength vertices ((k : ℝ) * totalLength vertices / ((n : ℝ) - 1))) ∧
    some (pointAtArclength vertices (((0 : ℕ) : ℝ) * totalLength vertices / ((n : ℝ) - 1)))
      = vertices.head? ∧
    some (pointAtArclength vertices (((n - 1 : ℕ) : ℝ) * totalLength vertices / ((n : ℝ) - 1)))
      = vertices.getLast? := by
  obtain ⟨v0, v1, rest, rfl⟩ : ∃ v0 v1 rest, vertices = v0 :: v1 :: rest := by
    match vertices, hlen with
    | v0 :: v1 :: rest, _ => exact ⟨v0, v1, rest, rfl⟩
  refine ⟨resamplePath_eq v0 v1 rest n fuel hL hn hf, ?_, ?_⟩
  · simp [pointAtArclength_zero]
  · have hn1 : (n : ℝ) - 1 ≠ 0 := by
      have : (2 : ℝ) ≤ n := by exact_mod_cast hn
      intro h; linarith
    have hcast : ((n - 1 : ℕ) : ℝ) = (n : ℝ) - 1 := by
      rw [Nat.cast_sub (by omega)]; simp
    have hmul : ((n : ℝ) - 1) * totalLength (v0 :: v1 :: rest) / ((n : ℝ) - 1)
        = totalLength (v0 :: v1 :: rest) := by
      field_simp
    rw [hcast, hmul, pointAtArclength_totalLength,
      List.getLast?_eq_getLast _ (List.cons_ne_nil _ _)]

/-- Witness of C6: the path `(0, 0), (2, 0), (2, 2)` resampled to 3 points with fuel 3. -/
theorem resamplePath_arclength_witness :
    2 ≤ ([⟨0, 0⟩, ⟨2, 0⟩, ⟨2, 2⟩] : List Vertex).length ∧
    0 < totalLength [⟨0, 0⟩, ⟨2, 0⟩, ⟨2, 2⟩] ∧ 2 ≤ 3 ∧ 3 ≤ 3 ∧
    resamplePath 3 [⟨0, 0⟩, ⟨2, 0⟩, ⟨2, 2⟩] 3
      = some ((List.range 3).map fun (k : ℕ) =>
          pointAtArclength [⟨0, 0⟩, ⟨2, 0⟩, ⟨2, 2⟩]
            ((k : ℝ) * totalLength [⟨0, 0⟩, ⟨2, 0⟩, ⟨2, 2⟩] / (((3 : ℕ) : ℝ) - 1))) :=
  ⟨by decide, by norm_num [totalLength, totalLengthFrom, distance_same_x, distance_same_y],
    by decide, le_rfl,
    (resamplePath_arclength [⟨0, 0⟩, ⟨2, 0⟩, ⟨2, 2⟩] 3 3 (by decide)
      (by norm_num [totalLength, totalLengthFrom, distance_same_x, distance_same_y])
      (by decide) le_rfl).1⟩

/-- Claim C7 (square scenario): `parseSVGPath("M0,0 L100,0 L100,100 L0,100 Z")` is the list
`(0,0), (100,0), (100,100), (0,100), (0,0)`, and `resamplePath` of it with `n = 4` returns
the 4 perimeter points `(0,0), (100,100/3), (100/3,100), (0,0)`, first and last both `(0,0)`;
fuel 4 is enough and more fuel gives the same list. -/
theorem square_scenario :
    parseSVGPath "M0,0 L100,0 L100,100 L0,100 Z"
      = [⟨.fin 0, .fin 0⟩, ⟨.fin 100, .fin 0⟩, ⟨.fin 100, .fin 100⟩, ⟨.fin 0, .fin 100⟩,
          ⟨.fin 0, .fin 0⟩] ∧
    toVertices (parseSVGPath "M0,0 L100,0 L100,100 L0,100 Z")
      = some [⟨0, 0⟩, ⟨100, 0⟩, ⟨100, 100⟩, ⟨0, 100⟩, ⟨0, 0⟩] ∧
    resamplePath 4 [⟨0, 0⟩, ⟨100, 0⟩, ⟨100, 100⟩, ⟨0, 100⟩, ⟨0, 0⟩] 4
      = some [⟨0, 0⟩, ⟨100, 100 / 3⟩, ⟨100 / 3, 100⟩, ⟨0, 0⟩] ∧
    ∀ fuel : ℕ, 4 ≤ fuel →
      resamplePath fuel [⟨0, 0⟩, ⟨100, 0⟩, ⟨100, 100⟩, ⟨0, 100⟩, ⟨0, 0⟩] 4
        = resamplePath 4 [⟨0, 0⟩, ⟨100, 0⟩, ⟨100, 100⟩, ⟨0, 100⟩, ⟨0, 0⟩] 4 := by
  have hparse : parseSVGPath "M0,0 L100,0 L100,100 L0,100 Z"
      = [⟨.fin 0, .fin 0⟩, ⟨.fin 100, .fin 0⟩, ⟨.fin 100, .fin 100⟩, ⟨.fin 0, .fin 100⟩,
          ⟨.fin 0, .fin 0⟩] := by decide
  refine ⟨hparse, ?_, ?_, ?_⟩
  · rw [hparse]
    simp [toVertices, RawVertex.toVertex]
  · norm_num [resamplePath, walkSegments, whileLoop, whileBody, padPoints, totalLength,
      totalLengthFrom, distance_same_x, distance_same_y, abs_div, abs_neg, Nat.abs_ofNat]
  · intro fuel hf
    have hpos : 0 < totalLength [⟨0, 0⟩, ⟨100, 0⟩, ⟨100, 100⟩, ⟨0, 100⟩, ⟨0, 0⟩] := by
      apply totalLength_pos_of_ne
      intro h
      have := congrArg Vertex.x h
      norm_num at this
    rw [resamplePath_eq _ _ _ 4 fuel hpos (by decide) hf,
      resamplePath_eq _ _ _ 4 4 hpos (by decide) le_rfl]

/-! ## The transform and its inverse -/

theorem abs_mul_cos_add_arg (c : ℂ) (θ : ℝ) :
    Real.sqrt (c.re * c.re + c.im * c.im) * Real.cos (θ + Complex.arg ⟨c.re, c.im⟩)
      = (c * Complex.exp (θ * Complex.I)).re := by
  have hc : (⟨c.re, c.im⟩ : ℂ) = c := Complex.eta c
  have habs : Real.sqrt (c.re * c.re + c.im * c.im) = Complex.abs c := by
    rw [Complex.abs_apply, Complex.normSq_apply]
  rw [hc, habs, Real.cos_add, Complex.exp_mul_I, ← Complex.ofReal_cos, ← Complex.ofReal_sin]
  have h1 := Complex.abs_mul_cos_arg c
  have h2 := Complex.abs_mul_sin_arg c
  simp only [Complex.mul_re, Complex.add_re, Complex.ofReal_re, Complex.mul_im, Complex.I_re,
    Complex.I_im, Complex.ofReal_im, Complex.add_im]
  linear_combination (Real.cos θ) * h1 - (Real.sin θ) * h2

theorem abs_mul_sin_add_arg (c : ℂ) (θ : ℝ) :
    Real.sqrt (c.re * c.re + c.im * c.im) * Real.sin (θ + Complex.arg ⟨c.re, c.im⟩)
      = (c * Complex.exp (θ * Complex.I)).im := by
  have hc : (⟨c.re, c.im⟩ : ℂ) = c := Complex.eta c
  have habs : Real.sqrt (c.re * c.re + c.im * c.im) = Complex.abs c := by
    rw [Complex.abs_apply, Complex.normSq_apply]
  rw [hc, habs, Real.sin_add, Complex.exp_mul_I, ← Complex.ofReal_cos, ← Complex.ofReal_sin]
  have h1 := Complex.abs_mul_cos_arg c
  have h2 := Complex.abs_mul_sin_arg c
  simp only [Complex.mul_re, Complex.add_re, Complex.ofReal_re, Complex.mul_im, Complex.I_re,
    Complex.I_im, Complex.ofReal_im, Complex.add_im]
  linear_combination (Real.sin θ) * h1 + (Real.cos θ) * h2

theorem foldl_range_pair (f g : ℕ → ℝ) (n : ℕ) (a b : ℝ) :
    (List.range n).foldl (fun (acc : ℝ × ℝ) (i : ℕ) => (acc.1 + f i, acc.2 + g i)) (a, b)
      = (a + ∑ i in Finset.range n, f i, b + ∑ i in Finset.range n, g i) := by
  induction n with
  | zero => simp
  | succ n ih =>
    rw [List.range_succ, List.foldl_append, ih]
    simp [Finset.sum_range_succ, add_assoc]

theorem list_sum_map_range (f : ℕ → ℝ) (n : ℕ) :
    ((List.range n).map f).sum = ∑ i in Finset.range n, f i := by
  induction n with
  | zero => simp
  | succ n ih =>
    rw [List.range_succ, List.map_append, List.sum_append, ih]
    simp [Finset.sum_range_succ]

theorem exp_angle (N k n : ℕ) :
    Complex.exp (((2 * Real.pi * k * n / N : ℝ) : ℂ) * Complex.I)
      = Complex.exp (2 * Real.pi * Complex.I / N) ^ (k * n) := by
  rw [← Complex.exp_nat_mul]
  congr 1
  push_cast
  ring

theorem dftComplex_eq (points : List Vertex) (k : ℕ) :
    dftComplex points k
      = (1 / (points.length : ℂ)) * ∑ n in Finset.range points.length,
          sampleComplex points n * (Complex.exp (2 * Real.pi * Complex.I / points.length) ^ (k * n))⁻¹ := by
  have hterm : ∀ n : ℕ,
      sampleComplex points n * (Complex.exp (2 * Real.pi * Complex.I / points.length) ^ (k * n))⁻¹
        = ⟨(points.getD n ⟨0, 0⟩).x * Real.cos (2 * Real.pi * k * n / points.length)
            + (points.getD n ⟨0, 0⟩).y * Real.sin (2 * Real.pi * k * n / points.length),
           -(points.getD n ⟨0, 0⟩).x * Real.sin (2 * Real.pi * k * n / points.length)
            + (points.getD n ⟨0, 0⟩).y * Real.cos (2 * Real.pi * k * n / points.length)⟩ := by
    intro n
    rw [← exp_angle]
    generalize (2 * Real.pi * k * n / points.length : ℝ) = θ
    rw [← Complex.exp_neg, ← neg_mul, ← Complex.ofReal_neg, Complex.exp_mul_I,
      ← Complex.ofReal_cos, ← Complex.ofReal_sin, Real.cos_neg, Real.sin_neg]
    apply Complex.ext
    · simp only [sampleComplex, Complex.mul_re, Complex.add_re, Complex.ofReal_re,
        Complex.mul_im, Complex.I_re, Complex.I_im, Complex.ofReal_im, Complex.add_im]
      ring
    · simp only [sampleComplex, Complex.mul_re, Complex.add_re, Complex.ofReal_re,
        Complex.mul_im, Complex.I_re, Complex.I_im, Complex.ofReal_im, Complex.add_im]
      ring
  simp only [hterm]
  have hN : (1 / (points.length : ℂ)) = ((1 / (points.length : ℝ) : ℝ) : ℂ) := by push_cast; rfl
  unfold dftComplex dftSums
  rw [foldl_range_pair, hN]
  apply Complex.ext
  · rw [Complex.re_ofReal_mul, Complex.re_sum]
    simp only [zero_add]
    ring
  · rw [Complex.im_ofReal_mul, Complex.im_sum]
    simp only [zero_add]
    ring


theorem root_orthogonal (N : ℕ) (hN : 0 < N) (j n : ℕ) (hj : j < N) (hn : n < N) :
    ∑ k in Finset.range N,
        (Complex.exp (2 * Real.pi * Complex.I / N) ^ (k * n))⁻¹
          * Complex.exp (2 * Real.pi * Complex.I / N) ^ (k * j)
      = if n = j then (N : ℂ) else 0 := by
  have hprim := Complex.isPrimitiveRoot_exp N (Nat.pos_iff_ne_zero.mp hN)
  set ζ := Complex.exp (2 * Real.pi * Complex.I / N) with hζ
  have hζ0 : ζ ≠ 0 := Complex.exp_ne_zero _
  have hterm : ∀ k : ℕ, (ζ ^ (k * n))⁻¹ * ζ ^ (k * j) = ((ζ ^ n)⁻¹ * ζ ^ j) ^ k := by
    intro k
    rw [pow_mul', pow_mul', mul_pow, inv_pow]
  simp only [hterm]
  split_ifs with h
  · subst h
    rw [inv_mul_cancel₀ (pow_ne_zero _ hζ0)]
    simp
  · have hw : (ζ ^ n)⁻¹ * ζ ^ j ≠ 1 := by
      intro hw
      have : ζ ^ j = ζ ^ n := by
        have := congrArg (fun t => ζ ^ n * t) hw
        simpa [mul_inv_cancel_left₀ (pow_ne_zero n hζ0)] using this
      exact h (hprim.pow_inj hj hn this).symm
    rw [geom_sum_eq hw]
    have hpow : ((ζ ^ n)⁻¹ * ζ ^ j) ^ N = 1 := by
      rw [mul_pow, inv_pow, ← pow_mul, ← pow_mul, mul_comm n N, mul_comm j N, pow_mul, pow_mul,
        hprim.pow_eq_one]
      simp
    rw [hpow]
    simp

theorem inverse_dft (points : List Vertex) (j : ℕ) (hj : j < points.length) :
    ∑ k in Finset.range points.length,
        dftComplex points k * Complex.exp (2 * Real.pi * Complex.I / points.length) ^ (k * j)
      = sampleComplex points j := by
  have hN : 0 < points.length := by omega
  have hN0 : (points.length : ℂ) ≠ 0 := by exact_mod_cast (Nat.pos_iff_ne_zero.mp hN)
  simp only [dftComplex_eq, Finset.mul_sum, Finset.sum_mul]
  rw [Finset.sum_comm]
  have hinner : ∀ n ∈ Finset.range points.length,
      ∑ k in Finset.range points.length,
        1 / (points.length : ℂ) *
          (sampleComplex points n
            * (Complex.exp (2 * Real.pi * Complex.I / points.length) ^ (k * n))⁻¹)
          * Complex.exp (2 * Real.pi * Complex.I / points.length) ^ (k * j)
        = 1 / (points.length : ℂ) * sampleComplex points n
            * (if n = j then (points.length : ℂ) else 0) := by
    intro n hn
    rw [← root_orthogonal points.length hN j n hj (Finset.mem_range.mp hn), Finset.mul_sum]
    refine Finset.sum_congr rfl fun k _ => ?_
    ring
  rw [Finset.sum_congr rfl hinner]
  rw [Finset.sum_eq_single j]
  · rw [if_pos rfl]
    field_simp
  · intro n _ hne
    rw [if_neg hne, mul_zero]
  · intro h
    exact absurd (Finset.mem_range.mpr hj) h

theorem exp_remap_angle (N i j : ℕ) (hN : 0 < N) :
    Complex.exp ((((remapFreq N i : ℤ) : ℝ) * ((j : ℝ) * (2 * Real.pi) / N) : ℝ) * Complex.I)
      = Complex.exp (2 * Real.pi * Complex.I / N) ^ (i * j) := by
  have hN0 : (N : ℂ) ≠ 0 := by exact_mod_cast (Nat.pos_iff_ne_zero.mp hN)
  rw [← exp_angle]
  unfold remapFreq
  split_ifs
  · have : (((((i : ℤ) - (N : ℤ) : ℤ) : ℝ) * ((j : ℝ) * (2 * Real.pi) / N) : ℝ) : ℂ) * Complex.I
        = ((2 * Real.pi * i * j / N : ℝ) : ℂ) * Complex.I - (j : ℂ) * (2 * Real.pi * Complex.I) := by
      push_cast
      field_simp
      ring
    rw [this, Complex.exp_sub, Complex.exp_nat_mul_two_pi_mul_I, div_one]
  · congr 2
    push_cast
    ring

/-- The fold of the trace loop and of the arm loop, as the start plus two sums. -/
theorem foldl_series (cs : List Coeff) (time : ℝ) (p : Vertex) :
    cs.foldl
      (fun (p : Vertex) (c : Coeff) =>
        (⟨p.x + c.amp * Real.cos (c.freq * time + c.phase),
          p.y + c.amp * Real.sin (c.freq * time + c.phase)⟩ : Vertex)) p
    = ⟨p.x + (cs.map fun c => c.amp * Real.cos (c.freq * time + c.phase)).sum,
       p.y + (cs.map fun c => c.amp * Real.sin (c.freq * time + c.phase)).sum⟩ := by
  induction cs generalizing p with
  | nil => simp
  | cons c cs ih =>
    rw [List.foldl_cons, ih]
    simp [add_assoc]

theorem tracePoint_eq (cs : List Coeff) (size : CanvasSize) (N j : ℕ) :
    tracePoint cs size N j
      = ⟨size.width / 2 +
          (cs.map fun c => c.amp * Real.cos (c.freq * ((j : ℝ) * (2 * Real.pi) / N) + c.phase)).sum,
         size.height / 2 +
          (cs.map fun c => c.amp * Real.sin (c.freq * ((j : ℝ) * (2 * Real.pi) / N) + c.phase)).sum⟩ := by
  unfold tracePoint
  exact foldl_series cs _ _


theorem length_dft (points : List Vertex) : (dft points).length = points.length := by
  simp [dft]

theorem mapCoeffs_dft (points : List Vertex) :
    mapCoeffs (dft points) = (List.range points.length).map fun i =>
      (⟨remapFreq points.length i,
        Real.sqrt ((dftComplex points i).re * (dftComplex points i).re
          + (dftComplex points i).im * (dftComplex points i).im),
        Complex.arg ⟨(dftComplex points i).re, (dftComplex points i).im⟩⟩ : Coeff) := by
  unfold mapCoeffs
  rw [length_dft]
  refine List.map_congr_left fun i hi => ?_
  have hi := List.mem_range.mp hi
  have : (dft points).getD i ⟨0, 0, 0⟩
      = ⟨i, Real.sqrt ((dftComplex points i).re * (dftComplex points i).re
          + (dftComplex points i).im * (dftComplex points i).im),
        Complex.arg ⟨(dftComplex points i).re, (dftComplex points i).im⟩⟩ := by
    simp [dft, List.getD_eq_getElem?_getD, List.getElem?_range hi, dftComplex, atan2]
  rw [this]

/-- Claim C2 (DFT round-trip): for a sample list of length `N ≥ 1` (here `j < N`), `dft`
returns `N` coefficients, and the trace formula of `setup` evaluated on all of them, remapped
but not filtered, at `t_j = j * 2π / N` is the canvas centre plus sample `j`, over exact real
arithmetic. -/
theorem dft_round_trip (points : List Vertex) (size : CanvasSize) (j : ℕ)
    (hj : j < points.length) :
    (dft points).length = points.length ∧
    tracePoint (mapCoeffs (dft points)) size points.length j
      = ⟨size.width / 2 + (points.get ⟨j, hj⟩).x, size.height / 2 + (points.get ⟨j, hj⟩).y⟩ := by
  refine ⟨length_dft points, ?_⟩
  have hN : 0 < points.length := by omega
  have hsample : sampleComplex points j = ⟨(points.get ⟨j, hj⟩).x, (points.get ⟨j, hj⟩).y⟩ := by
    simp [sampleComplex, List.getD_eq_getElem?_getD, List.getElem?_eq_getElem hj]
  have hinv := inverse_dft points j hj
  rw [tracePoint_eq, mapCoeffs_dft, List.map_map, List.map_map, list_sum_map_range,
    list_sum_map_range]
  simp only [Function.comp_def]
  have hre : ∀ i : ℕ,
      Real.sqrt ((dftComplex points i).re * (dftComplex points i).re
          + (dftComplex points i).im * (dftComplex points i).im)
        * Real.cos (((remapFreq points.length i : ℤ) : ℝ) * ((j : ℝ) * (2 * Real.pi) / points.length)
            + Complex.arg ⟨(dftComplex points i).re, (dftComplex points i).im⟩)
        = (dftComplex points i
            * Complex.exp (2 * Real.pi * Complex.I / points.length) ^ (i * j)).re := by
    intro i
    rw [abs_mul_cos_add_arg, exp_remap_angle _ _ _ hN]
  have him : ∀ i : ℕ,
      Real.sqrt ((dftComplex points i).re * (dftComplex points i).re
          + (dftComplex points i).im * (dftComplex points i).im)
        * Real.sin (((remapFreq points.length i : ℤ) : ℝ) * ((j : ℝ) * (2 * Real.pi) / points.length)
            + Complex.arg ⟨(dftComplex points i).re, (dftComplex points i).im⟩)
        = (dftComplex points i
            * Complex.exp (2 * Real.pi * Complex.I / points.length) ^ (i * j)).im := by
    intro i
    rw [abs_mul_sin_add_arg, exp_remap_angle _ _ _ hN]
  simp only [hre, him]
  rw [← Complex.re_sum, ← Complex.im_sum, hinv, hsample]

/-- Witness of C2: two samples, reconstructed at `j = 1`. -/
theorem dft_round_trip_witness :
    1 < [(⟨3, 4⟩ : Vertex), ⟨-1, 2⟩].length ∧
    (dft [⟨3, 4⟩, ⟨-1, 2⟩]).length = [(⟨3, 4⟩ : Vertex), ⟨-1, 2⟩].length ∧
    tracePoint (mapCoeffs (dft [⟨3, 4⟩, ⟨-1, 2⟩])) ⟨10, 20⟩ [(⟨3, 4⟩ : Vertex), ⟨-1, 2⟩].length 1
      = ⟨10 / 2 + -1, 20 / 2 + 2⟩ :=
  ⟨by decide, dft_round_trip [⟨3, 4⟩, ⟨-1, 2⟩] ⟨10, 20⟩ 1 (by decide)⟩

/-! ## The signed frequencies -/

theorem mapCoeffs_freqs (allCoeffs : List Coeff) :
    (mapCoeffs allCoeffs).map (fun c => c.freq)
      = (List.range allCoeffs.length).map (remapFreq allCoeffs.length) := by
  simp [mapCoeffs, Function.comp_def]

theorem remapFreq_eq (N i : ℕ) : remapFreq N i = if N < 2 * i then (i : ℤ) - N else i := by
  unfold remapFreq
  have h : ((i : ℚ) > (N : ℚ) / 2) ↔ N < 2 * i := by
    rw [gt_iff_lt, div_lt_iff₀ (by norm_num : (0 : ℚ) < 2)]
    constructor
    · intro h
      have : ((N : ℕ) : ℚ) < ((i * 2 : ℕ) : ℚ) := by push_cast; exact h
      have := Nat.cast_lt.mp this
      omega
    · intro h
      have : ((N : ℕ) : ℚ) < ((i * 2 : ℕ) : ℚ) := Nat.cast_lt.mpr (by omega)
      push_cast at this; exact this
  simp only [h]

theorem mem_remapFreq_range (N : ℕ) (f : ℤ) :
    f ∈ (List.range N).map (remapFreq N) ↔ -(N : ℤ) < 2 * f ∧ 2 * f ≤ (N : ℤ) := by
  simp only [List.mem_map, List.mem_range]
  constructor
  · rintro ⟨i, hi, rfl⟩
    rw [remapFreq_eq]
    split_ifs <;> omega
  · rintro ⟨h1, h2⟩
    by_cases hf : 0 ≤ f
    · refine ⟨f.toNat, by omega, ?_⟩
      rw [remapFreq_eq]
      split_ifs <;> omega
    · refine ⟨(f + N).toNat, by omega, ?_⟩
      rw [remapFreq_eq]
      split_ifs <;> omega

theorem floor_ceil_half (N : ℕ) (f : ℤ) :
    (-(⌈(N : ℚ) / 2⌉ - 1) ≤ f ∧ f ≤ ⌊(N : ℚ) / 2⌋) ↔ (-(N : ℤ) < 2 * f ∧ 2 * f ≤ (N : ℤ)) := by
  have h1 : f ≤ ⌊(N : ℚ) / 2⌋ ↔ 2 * f ≤ (N : ℤ) := by
    rw [Int.le_floor, le_div_iff₀ (by norm_num : (0 : ℚ) < 2)]
    constructor
    · intro h
      have : ((f * 2 : ℤ) : ℚ) ≤ ((N : ℤ) : ℚ) := by push_cast; exact h
      have := Int.cast_le.mp this
      omega
    · intro h
      have : ((f * 2 : ℤ) : ℚ) ≤ ((N : ℤ) : ℚ) := Int.cast_le.mpr (by omega)
      push_cast at this; exact this
  have h2 : -(⌈(N : ℚ) / 2⌉ - 1) ≤ f ↔ -(N : ℤ) < 2 * f := by
    have : -(⌈(N : ℚ) / 2⌉ - 1) ≤ f ↔ -f < ⌈(N : ℚ) / 2⌉ := by omega
    rw [this, Int.lt_ceil, lt_div_iff₀ (by norm_num : (0 : ℚ) < 2)]
    constructor
    · intro h
      have : ((-f * 2 : ℤ) : ℚ) < ((N : ℤ) : ℚ) := by push_cast; exact h
      have := Int.cast_lt.mp this
      omega
    · intro h
      have : ((-f * 2 : ℤ) : ℚ) < ((N : ℤ) : ℚ) := Int.cast_lt.mpr (by omega)
      push_cast at this; exact this
  rw [h1, h2]

theorem remapFreq_nodup (N : ℕ) : ((List.range N).map (remapFreq N)).Nodup := by
  refine (List.nodup_map_iff_inj_on (List.nodup_range N)).mpr ?_
  intro i hi j hj h
  rw [remapFreq_eq, remapFreq_eq] at h
  have hi := List.mem_range.mp hi
  have hj := List.mem_range.mp hj
  split_ifs at h <;> omega

/-- Counterexample to C3 as stated: for `N = 2` the remapped frequencies are `0, 1`, while
the claimed set `{-floor(N/2), ..., ceil(N/2) - 1}` is `{-1, 0}`; the frequency `1 = N/2` is
not below `ceil(N/2) - 1 = 0`. -/
theorem remap_range_counterexample :
    (mapCoeffs (dft [⟨0, 0⟩, ⟨0, 0⟩])).map (fun c => c.freq) = [0, 1] ∧
    ¬ ((1 : ℤ) ≤ ⌈(([⟨0, 0⟩, ⟨0, 0⟩] : List Vertex).length : ℚ) / 2⌉ - 1) ∧
    ¬ (∀ f : ℤ, f ∈ (mapCoeffs (dft [⟨0, 0⟩, ⟨0, 0⟩])).map (fun c => c.freq) ↔
        -⌊(([⟨0, 0⟩, ⟨0, 0⟩] : List Vertex).length : ℚ) / 2⌋ ≤ f ∧
          f ≤ ⌈(([⟨0, 0⟩, ⟨0, 0⟩] : List Vertex).length : ℚ) / 2⌉ - 1) := by
  have hfreqs : (mapCoeffs (dft [⟨0, 0⟩, ⟨0, 0⟩])).map (fun c => c.freq) = [0, 1] := by
    rw [mapCoeffs_freqs, length_dft]
    simp [List.range_succ, remapFreq_eq]
  have hceil : ⌈(([⟨0, 0⟩, ⟨0, 0⟩] : List Vertex).length : ℚ) / 2⌉ = 1 := by
    norm_num
  refine ⟨hfreqs, by rw [hceil]; norm_num, ?_⟩
  intro h
  have h1 := (h 1).mp (by rw [hfreqs]; simp)
  rw [hceil] at h1
  omega

/-- Claim C3, amended: the frequencies that `setup` gives the `N` unfiltered coefficients of
`dft` have no duplicates and are exactly the integers from `-(ceil(N/2) - 1)` to
`floor(N/2)`, that is, those in `(-N/2, N/2]`. -/
theorem remap_range (points : List Vertex) :
    ((mapCoeffs (dft points)).map (fun c => c.freq)).Nodup ∧
    ∀ f : ℤ, f ∈ (mapCoeffs (dft points)).map (fun c => c.freq) ↔
      -(⌈(points.length : ℚ) / 2⌉ - 1) ≤ f ∧ f ≤ ⌊(points.length : ℚ) / 2⌋ := by
  rw [mapCoeffs_freqs, length_dft]
  exact ⟨remapFreq_nodup _, fun f => by rw [floor_ceil_half, mem_remapFreq_range]⟩

/-! ## The stored coefficient set -/

theorem sortInsert_perm {α : Type} (cmp : α → α → ℝ) (a : α) (l : List α) :
    (sortInsert cmp a l).Perm (a :: l) := by
  induction l with
  | nil => simp [sortInsert]
  | cons b l ih =>
    unfold sortInsert
    split_ifs
    · exact List.Perm.refl _
    · exact (List.Perm.cons b ih).trans (List.Perm.swap a b l)

theorem jsSort_perm {α : Type} (cmp : α → α → ℝ) (l : List α) : (jsSort cmp l).Perm l := by
  induction l with
  | nil => simp [jsSort]
  | cons a l ih =>
    unfold jsSort
    exact (sortInsert_perm cmp a _).trans (List.Perm.cons a ih)

theorem sortInsert_pairwise (a : Coeff) (l : List Coeff)
    (h : l.Pairwise (fun p q => q.amp ≤ p.amp)) :
    (sortInsert (fun p q : Coeff => q.amp - p.amp) a l).Pairwise (fun p q => q.amp ≤ p.amp) := by
  induction l with
  | nil => simp [sortInsert]
  | cons b l ih =>
    obtain ⟨hb, hl⟩ := List.pairwise_cons.mp h
    unfold sortInsert
    split_ifs with hc
    · refine List.pairwise_cons.mpr ⟨?_, h⟩
      intro x hx
      have hba : b.amp ≤ a.amp := by linarith
      rcases List.mem_cons.mp hx with rfl | hx
      · exact hba
      · exact (hb x hx).trans hba
    · refine List.pairwise_cons.mpr ⟨?_, ih hl⟩
      intro x hx
      have hab : a.amp ≤ b.amp := by
        have := not_le.mp hc
        linarith
      rcases List.mem_cons.mp ((sortInsert_perm _ a l).mem_iff.mp hx) with rfl | hx
      · exact hab
      · exact hb x hx

theorem jsSort_pairwise (l : List Coeff) :
    (jsSort (fun p q : Coeff => q.amp - p.amp) l).Pairwise (fun p q => q.amp ≤ p.amp) := by
  induction l with
  | nil => simp [jsSort]
  | cons a l ih =>
    unfold jsSort
    exact sortInsert_pairwise a _ ih

theorem filterAndSort_perm (l : List Coeff) :
    (filterAndSort l).Perm (l.filter fun x => decide (x.amp ≥ 0.02)) :=
  jsSort_perm _ _

theorem mapCoeffs_nodup (allCoeffs : List Coeff) : (mapCoeffs allCoeffs).Nodup := by
  apply List.Nodup.of_map (fun c => c.freq)
  rw [mapCoeffs_freqs]
  exact remapFreq_nodup _

theorem setup_done_eq (fuel : ℕ) (svgPathData : String) (state st' : State)
    (h : setup fuel svgPathData state = SetupResult.done st') :
    ∃ sampledPoints : List Vertex, st' = storeCoeffsAndTrace (dft sampledPoints) state := by
  unfold setup at h
  simp only at h
  split_ifs at h
  split at h
  · exact absurd h (by simp)
  · split at h
    · exact absurd h (by simp)
    · split at h
      · exact absurd h (by simp)
      · rename_i sampledPoints _
        exact ⟨sampledPoints, (SetupResult.done.inj h).symm⟩

theorem setup_example_done :
    ∃ st' : State, setup 2 "M0,0 L3,4" ⟨[], none, 2, ⟨10, 10⟩⟩ = SetupResult.done st' := by
  have hparse : parseSVGPath "M0,0 L3,4" = [⟨.fin 0, .fin 0⟩, ⟨.fin 3, .fin 4⟩] := by decide
  have hvs : toVertices [⟨.fin 0, .fin 0⟩, ⟨.fin 3, .fin 4⟩] = some [⟨0, 0⟩, ⟨3, 4⟩] := by
    simp [toVertices, RawVertex.toVertex]
  have hb : computeBounds [⟨0, 0⟩, ⟨3, 4⟩] = ⟨(0 : ℝ), (3 : ℝ), (0 : ℝ), (4 : ℝ)⟩ := by
    simp [computeBounds]
  have hs : computeScale ⟨10, 10⟩ ⟨(0 : ℝ), (3 : ℝ), (0 : ℝ), (4 : ℝ)⟩ = some 2 := by
    have h3 : jsDiv 10 (3 - 0) = some (((10 / 3 : ℝ) : ℝ) : EReal) := by
      norm_num [jsDiv]
    have h4 : jsDiv 10 (4 - 0) = some (((5 / 2 : ℝ) : ℝ) : EReal) := by
      norm_num [jsDiv]
    have hmin : min (((10 / 3 : ℝ) : ℝ) : EReal) (((5 / 2 : ℝ) : ℝ) : EReal)
        = (((5 / 2 : ℝ) : ℝ) : EReal) :=
      min_eq_right (EReal.coe_le_coe_iff.mpr (by norm_num))
    unfold computeScale
    simp only [EReal.toReal_coe, h3, h4, jsMin, hmin, EReal.coe_ne_top, EReal.coe_ne_bot,
      or_self, if_false]
    norm_num
  unfold setup
  simp only [hparse, hvs, hb, hs, EReal.toReal_coe, List.map_cons, List.map_nil]
  rw [if_neg (by decide), resamplePath_eq _ _ _ 2 2 ?_ le_rfl le_rfl]
  · exact ⟨_, rfl⟩
  · apply totalLength_pos_of_ne
    intro h
    have := congrArg Vertex.x h
    norm_num at this

/-- Claim C4 (filter monotonicity): the list that `setup` stores in `state.fourierCoeffs` is
sorted by amplitude, largest first: `amp[i] ≥ amp[i + 1]` for every adjacent pair. -/
theorem fourierCoeffs_sorted (fuel : ℕ) (svgPathData : String) (state st' : State)
    (h : setup fuel svgPathData state = SetupResult.done st') :
    ∃ cs : List Coeff, st'.fourierCoeffs = some cs ∧
      ∀ (i : ℕ) (hi : i + 1 < cs.length),
        (cs.get ⟨i + 1, hi⟩).amp ≤ (cs.get ⟨i, Nat.lt_of_succ_lt hi⟩).amp := by
  obtain ⟨sampledPoints, rfl⟩ := setup_done_eq fuel svgPathData state st' h
  refine ⟨filterAndSort (mapCoeffs (dft sampledPoints)), rfl, ?_⟩
  intro i hi
  have hp := jsSort_pairwise
    ((mapCoeffs (dft sampledPoints)).filter fun x => decide (x.amp ≥ 0.02))
  exact List.pairwise_iff_get.mp hp ⟨i, Nat.lt_of_succ_lt hi⟩ ⟨i + 1, hi⟩ (by simp [Fin.lt_def])

/-- Witness of C4: `setup` on the path `M0,0 L3,4` with 2 samples on a 10 by 10 canvas. -/
theorem fourierCoeffs_sorted_witness :
    ∃ st' : State, setup 2 "M0,0 L3,4" ⟨[], none, 2, ⟨10, 10⟩⟩ = SetupResult.done st' ∧
      ∃ cs : List Coeff, st'.fourierCoeffs = some cs ∧
        ∀ (i : ℕ) (hi : i + 1 < cs.length),
          (cs.get ⟨i + 1, hi⟩).amp ≤ (cs.get ⟨i, Nat.lt_of_succ_lt hi⟩).amp := by
  obtain ⟨st', h⟩ := setup_example_done
  exact ⟨st', h, fourierCoeffs_sorted 2 "M0,0 L3,4" ⟨[], none, 2, ⟨10, 10⟩⟩ st' h⟩

/-- Claim C5 (amplitude filter): the list that `setup` stores in `state.fourierCoeffs` is a
permutation of the remapped coefficients of `dft` whose `amp` is at least `0.02`: each stored
coefficient is one of the remapped ones, unchanged, with `amp ≥ 0.02`; each remapped
coefficient with `amp ≥ 0.02` is stored; and none is stored twice. -/
theorem fourierCoeffs_filter (fuel : ℕ) (svgPathData : String) (state st' : State)
    (h : setup fuel svgPathData state = SetupResult.done st') :
    ∃ (sampledPoints : List Vertex) (cs : List Coeff),
      st' = storeCoeffsAndTrace (dft sampledPoints) state ∧
      st'.fourierCoeffs = some cs ∧
      cs.Perm ((mapCoeffs (dft sampledPoints)).filter fun x => decide (x.amp ≥ 0.02)) ∧
      (∀ c ∈ cs, c.amp ≥ 0.02 ∧ c ∈ mapCoeffs (dft sampledPoints)) ∧
      (∀ c ∈ mapCoeffs (dft sampledPoints), c.amp ≥ 0.02 → c ∈ cs) ∧
      cs.Nodup := by
  obtain ⟨sampledPoints, rfl⟩ := setup_done_eq fuel svgPathData state st' h
  have hp := filterAndSort_perm (mapCoeffs (dft sampledPoints))
  refine ⟨sampledPoints, filterAndSort (mapCoeffs (dft sampledPoints)), rfl, rfl, hp, ?_, ?_, ?_⟩
  · intro c hc
    have := List.mem_filter.mp (hp.mem_iff.mp hc)
    exact ⟨by simpa using this.2, this.1⟩
  · intro c hc ha
    exact hp.mem_iff.mpr (List.mem_filter.mpr ⟨hc, by simpa using ha⟩)
  · exact hp.nodup_iff.mpr ((mapCoeffs_nodup (dft sampledPoints)).filter _)

/-- Witness of C5: `setup` on the path `M0,0 L3,4` with 2 samples on a 10 by 10 canvas. -/
theorem fourierCoeffs_filter_witness :
    ∃ st' : State, setup 2 "M0,0 L3,4" ⟨[], none, 2, ⟨10, 10⟩⟩ = SetupResult.done st' ∧
      ∃ (sampledPoints : List Vertex) (cs : List Coeff),
        st' = storeCoeffsAndTrace (dft sampledPoints) ⟨[], none, 2, ⟨10, 10⟩⟩ ∧
        st'.fourierCoeffs = some cs ∧
        cs.Perm ((mapCoeffs (dft sampledPoints)).filter fun x => decide (x.amp ≥ 0.02)) ∧
        (∀ c ∈ cs, c.amp ≥ 0.02 ∧ c ∈ mapCoeffs (dft sampledPoints)) ∧
        (∀ c ∈ mapCoeffs (dft sampledPoints), c.amp ≥ 0.02 → c ∈ cs) ∧
        cs.Nodup := by
  obtain ⟨st', h⟩ := setup_example_done
  exact ⟨st', h, fourierCoeffs_filter 2 "M0,0 L3,4" ⟨[], none, 2, ⟨10, 10⟩⟩ st' h⟩

/-! ## The trace and the arm tip -/

theorem tracePoint_add_period (cs : List Coeff) (size : CanvasSize) (N j : ℕ) :
    tracePoint cs size N (j + N) = tracePoint cs size N j := by
  rcases Nat.eq_zero_or_pos N with rfl | hN
  · rfl
  · have hN0 : (N : ℝ) ≠ 0 := by positivity
    have ht : ((j + N : ℕ) : ℝ) * (2 * Real.pi) / N = (j : ℝ) * (2 * Real.pi) / N + 2 * Real.pi := by
      push_cast
      field_simp
      ring
    rw [tracePoint_eq, tracePoint_eq, ht]
    have hc : ∀ c : Coeff,
        c.amp * Real.cos (c.freq * ((j : ℝ) * (2 * Real.pi) / N + 2 * Real.pi) + c.phase)
          = c.amp * Real.cos (c.freq * ((j : ℝ) * (2 * Real.pi) / N) + c.phase) := by
      intro c
      have : (c.freq : ℝ) * ((j : ℝ) * (2 * Real.pi) / N + 2 * Real.pi) + c.phase
          = ((c.freq : ℝ) * ((j : ℝ) * (2 * Real.pi) / N) + c.phase) + c.freq * (2 * Real.pi) := by
        ring
      rw [this, Real.cos_add_int_mul_two_pi]
    have hs : ∀ c : Coeff,
        c.amp * Real.sin (c.freq * ((j : ℝ) * (2 * Real.pi) / N + 2 * Real.pi) + c.phase)
          = c.amp * Real.sin (c.freq * ((j : ℝ) * (2 * Real.pi) / N) + c.phase) := by
      intro c
      have : (c.freq : ℝ) * ((j : ℝ) * (2 * Real.pi) / N + 2 * Real.pi) + c.phase
          = ((c.freq : ℝ) * ((j : ℝ) * (2 * Real.pi) / N) + c.phase) + c.freq * (2 * Real.pi) := by
        ring
      rw [this, Real.sin_add_int_mul_two_pi]
    simp only [hc, hs]

theorem tracePoint_add_mul_period (cs : List Coeff) (size : CanvasSize) (N j k : ℕ) :
    tracePoint cs size N (j + k * N) = tracePoint cs size N j := by
  induction k with
  | zero => simp
  | succ k ih =>
    rw [Nat.succ_mul, ← Nat.add_assoc, tracePoint_add_period, ih]

theorem tracePoint_mod (cs : List Coeff) (size : CanvasSize) (N j : ℕ) :
    tracePoint cs size N (j % N) = tracePoint cs size N j := by
  conv_rhs => rw [← Nat.mod_add_div j N, Nat.mul_comm]
  rw [tracePoint_add_mul_period]

theorem buildTrace_getElem? (cs : List Coeff) (size : CanvasSize) (N j : ℕ) (h : j < N) :
    (buildTrace cs size N)[j]? = some (tracePoint cs size N j) := by
  simp [buildTrace, List.getElem?_map, List.getElem?_range h]

theorem armsFold_tip (cs : List Coeff) (time : ℝ) (acc : List CanvasOp × ℝ × ℝ) :
    (⟨(cs.foldl
        (fun (acc : List CanvasOp × ℝ × ℝ) (c : Coeff) =>
          let prev_x := acc.2.1
          let prev_y := acc.2.2
          let angle := c.freq * time + c.phase
          let x := prev_x + c.amp * Real.cos angle
          let y := prev_y + c.amp * Real.sin angle
          (acc.1 ++ [CanvasOp.moveTo prev_x prev_y, CanvasOp.lineTo x y], x, y)) acc).2.1,
      (cs.foldl
        (fun (acc : List CanvasOp × ℝ × ℝ) (c : Coeff) =>
          let prev_x := acc.2.1
          let prev_y := acc.2.2
          let angle := c.freq * time + c.phase
          let x := prev_x + c.amp * Real.cos angle
          let y := prev_y + c.amp * Real.sin angle
          (acc.1 ++ [CanvasOp.moveTo prev_x prev_y, CanvasOp.lineTo x y], x, y)) acc).2.2⟩ : Vertex)
      = cs.foldl
        (fun (p : Vertex) (c : Coeff) =>
          (⟨p.x + c.amp * Real.cos (c.freq * time + c.phase),
            p.y + c.amp * Real.sin (c.freq * time + c.phase)⟩ : Vertex)) ⟨acc.2.1, acc.2.2⟩ := by
  induction cs generalizing acc with
  | nil => rfl
  | cons c cs ih =>
    simp only [List.foldl_cons]
    exact ih _

theorem drawArms_tip (cs : List Coeff) (time x y : ℝ) :
    (⟨(drawArms cs time x y).2.1, (drawArms cs time x y).2.2⟩ : Vertex)
      = cs.foldl
        (fun (p : Vertex) (c : Coeff) =>
          (⟨p.x + c.amp * Real.cos (c.freq * time + c.phase),
            p.y + c.amp * Real.sin (c.freq * time + c.phase)⟩ : Vertex)) ⟨x, y⟩ :=
  armsFold_tip cs time ([], x, y)

/-- Claim C8 (zero-frequency trace): for the coefficient set `{freq: 0, amp: 5, phase: 0}`
and every `N`, the trace loop of `setup` builds `N` entries, each the canvas centre offset by
`(5, 0)`; and in any coefficient set a coefficient of frequency 0 adds the same offset
`(amp * cos(phase), amp * sin(phase))` to every trace entry. -/
theorem zero_freq_trace (size : CanvasSize) (N : ℕ) :
    buildTrace [⟨0, 5, 0⟩] size N = List.replicate N ⟨size.width / 2 + 5, size.height / 2⟩ ∧
    (buildTrace [⟨0, 5, 0⟩] size N).length = N ∧
    ∀ (cs₁ cs₂ : List Coeff) (a φ : ℝ) (j : ℕ),
      tracePoint (cs₁ ++ ⟨0, a, φ⟩ :: cs₂) size N j
        = ⟨(tracePoint (cs₁ ++ cs₂) size N j).x + a * Real.cos φ,
           (tracePoint (cs₁ ++ cs₂) size N j).y + a * Real.sin φ⟩ := by
  refine ⟨?_, by simp [buildTrace], ?_⟩
  · rw [List.eq_replicate_iff]
    refine ⟨by simp [buildTrace], ?_⟩
    intro b hb
    simp only [buildTrace, List.mem_map, List.mem_range] at hb
    obtain ⟨j, -, rfl⟩ := hb
    simp [tracePoint]
  · intro cs₁ cs₂ a φ j
    simp only [tracePoint_eq, List.map_append, List.map_cons, List.sum_append, List.sum_cons,
      Int.cast_zero, zero_mul, zero_add]
    congr 1 <;> ring

/-- Claim C9 (trail wrap continuity): for integer frequencies and `N ≥ 1` the trace formula
has period `N` in the sample index; entry `N - 1` of the trace is the series at index `N - 1`
and entry `0` is the series at the next index `N`, so the step across the wrap is a step of
the series like any other. -/
theorem trace_wrap (cs : List Coeff) (size : CanvasSize) (N : ℕ) (hN : 1 ≤ N) :
    (∀ j : ℕ, tracePoint cs size N (j + N) = tracePoint cs size N j) ∧
    (buildTrace cs size N)[N - 1]? = some (tracePoint cs size N (N - 1)) ∧
    (buildTrace cs size N)[0]? = some (tracePoint cs size N ((N - 1) + 1)) := by
  refine ⟨fun j => tracePoint_add_period cs size N j, buildTrace_getElem? cs size N _ (by omega), ?_⟩
  rw [Nat.sub_add_cancel hN, buildTrace_getElem? cs size N 0 (by omega)]
  have := tracePoint_add_period cs size N 0
  rw [Nat.zero_add] at this
  rw [this]

/-- Witness of C9: two coefficients and `N = 4`. -/
theorem trace_wrap_witness :
    1 ≤ 4 ∧
    ((∀ j : ℕ, tracePoint [⟨1, 2, 0⟩, ⟨-3, 1, 1⟩] ⟨10, 10⟩ 4 (j + 4)
        = tracePoint [⟨1, 2, 0⟩, ⟨-3, 1, 1⟩] ⟨10, 10⟩ 4 j) ∧
      (buildTrace [⟨1, 2, 0⟩, ⟨-3, 1, 1⟩] ⟨10, 10⟩ 4)[4 - 1]?
        = some (tracePoint [⟨1, 2, 0⟩, ⟨-3, 1, 1⟩] ⟨10, 10⟩ 4 (4 - 1)) ∧
      (buildTrace [⟨1, 2, 0⟩, ⟨-3, 1, 1⟩] ⟨10, 10⟩ 4)[0]?
        = some (tracePoint [⟨1, 2, 0⟩, ⟨-3, 1, 1⟩] ⟨10, 10⟩ 4 ((4 - 1) + 1))) :=
  ⟨by decide, trace_wrap [⟨1, 2, 0⟩, ⟨-3, 1, 1⟩] ⟨10, 10⟩ 4 (by decide)⟩

theorem storeCoeffsAndTrace_tip (allCoeffs : List Coeff) (state : State) (x y dpr : ℝ)
    (frame : ℕ) (hN : 1 ≤ state.numSamples) :
    ∃ r : List CanvasOp × Vertex,
      drawEpicycles x y (storeCoeffsAndTrace allCoeffs state) frame dpr = some r ∧
      (storeCoeffsAndTrace allCoeffs state).pathTrace[frame % state.numSamples]? = some r.2 := by
  refine ⟨_, rfl, ?_⟩
  have hlt : frame % state.numSamples < state.numSamples := Nat.mod_lt _ (by omega)
  show (buildTrace _ _ _)[_]? = _
  rw [buildTrace_getElem? _ _ _ _ hlt, tracePoint_mod]
  simp only [storeCoeffsAndTrace]
  rw [drawArms_tip]
  rfl

/-- Claim C10 (the arm tip is on the trace): after `setup`, for every frame the last chain
position computed by `drawEpicycles`, the canvas centre plus the sum of the rotating vectors
at `time = frame * 2π / N`, is `state.pathTrace[frame mod N]`, over exact arithmetic. -/
theorem epicycle_tip_eq_trace (fuel : ℕ) (svgPathData : String) (state st' : State)
    (x y dpr : ℝ) (frame : ℕ) (h : setup fuel svgPathData state = SetupResult.done st')
    (hN : 1 ≤ st'.numSamples) :
    ∃ r : List CanvasOp × Vertex,
      drawEpicycles x y st' frame dpr = some r ∧
      st'.pathTrace[frame % st'.numSamples]? = some r.2 := by
  obtain ⟨sampledPoints, rfl⟩ := setup_done_eq fuel svgPathData state st' h
  exact storeCoeffsAndTrace_tip (dft sampledPoints) state x y dpr frame hN

/-- Witness of C10: `setup` on the path `M0,0 L3,4` with 2 samples, then frame 7. -/
theorem epicycle_tip_eq_trace_witness :
    ∃ st' : State, setup 2 "M0,0 L3,4" ⟨[], none, 2, ⟨10, 10⟩⟩ = SetupResult.done st' ∧
      1 ≤ st'.numSamples ∧
      ∃ r : List CanvasOp × Vertex,
        drawEpicycles 5 5 st' 7 1 = some r ∧ st'.pathTrace[7 % st'.numSamples]? = some r.2 := by
  obtain ⟨st', h⟩ := setup_example_done
  have hN : 1 ≤ st'.numSamples := by
    obtain ⟨sampledPoints, rfl⟩ := setup_done_eq _ _ _ _ h
    show 1 ≤ 2
    decide
  exact ⟨st', h, hN,
    epicycle_tip_eq_trace 2 "M0,0 L3,4" ⟨[], none, 2, ⟨10, 10⟩⟩ st' 5 5 1 7 h hN⟩

/-! ## Degenerate input and termination of the resampler -/

theorem walkSegments_of_totalLength_eq_zero (fuel : ℕ) (interval : Option ℝ) :
    ∀ (vs : List Vertex) (acc : ℝ × List Vertex), totalLength vs = 0 →
      walkSegments fuel interval vs acc = some acc := by
  intro vs
  induction vs with
  | nil => intro acc _; simp [walkSegments]
  | cons p1 vs ih =>
    cases vs with
    | nil => intro acc _; simp [walkSegments]
    | cons p2 rest =>
      intro acc h
      rw [totalLength_cons_cons] at h
      have h1 := distance_nonneg p1 p2
      have h2 := totalLength_nonneg (p2 :: rest)
      have hd : distance p1 p2 = 0 := by linarith
      have ht : totalLength (p2 :: rest) = 0 := by linarith
      obtain ⟨dist, pts⟩ := acc
      rw [walkSegments, if_pos hd]
      exact ih (dist, pts) ht

theorem resamplePath_of_totalLength_eq_zero (fuel : ℕ) (v0 v1 : Vertex) (rest : List Vertex)
    (n : ℕ) (h : totalLength (v0 :: v1 :: rest) = 0) :
    resamplePath fuel (v0 :: v1 :: rest) n
      = some ((v0 :: List.replicate (n - 1)
          ((v1 :: rest).getLast (List.cons_ne_nil v1 rest))).take n) := by
  unfold resamplePath
  simp only
  rw [walkSegments_of_totalLength_eq_zero fuel _ _ _ h]
  simp [padPoints]

theorem eq_replicate_of_totalLength_eq_zero (v0 : Vertex) (vs : List Vertex)
    (h : totalLength (v0 :: vs) = 0) : v0 :: vs = List.replicate (vs.length + 1) v0 := by
  induction vs generalizing v0 with
  | nil => rfl
  | cons v1 rest ih =>
    rw [totalLength_cons_cons] at h
    have h1 := distance_nonneg v0 v1
    have h2 := totalLength_nonneg (v1 :: rest)
    have hd : distance v0 v1 = 0 := by linarith
    have ht : totalLength (v1 :: rest) = 0 := by linarith
    have hv : v0 = v1 := eq_of_distance_eq_zero v0 v1 hd
    subst hv
    rw [ih v0 ht]
    simp [List.replicate_succ]

/-- Counterexample to C11 as stated: a list of one vertex resampled with `n = 2` comes back
unchanged, with 1 point and not 2. -/
theorem resamplePath_short_counterexample :
    resamplePath 5 [⟨1, 1⟩] 2 = some [⟨1, 1⟩] ∧
    ¬ ∃ pts : List Vertex, resamplePath 5 [⟨1, 1⟩] 2 = some pts ∧ pts.length = 2 := by
  refine ⟨rfl, ?_⟩
  rintro ⟨pts, h, hl⟩
  have : pts = [⟨1, 1⟩] := by
    have h' : some [(⟨1, 1⟩ : Vertex)] = some pts := h
    exact (Option.some.inj h').symm
  rw [this] at hl
  simp at hl

/-- Claim C11, amended: for a vertex list with at least 2 vertices, of zero total length or
not, and every `n ≥ 2`, `resamplePath` returns exactly `n` points; when the total length is
zero they are the first vertex and then `n - 1` times the last vertex, the padding. (A list
with fewer than 2 vertices is returned as it is.) -/
theorem resamplePath_count_degenerate (vertices : List Vertex) (n : ℕ)
    (hlen : 2 ≤ vertices.length) (hn : 2 ≤ n) :
    (∀ fuel : ℕ, n ≤ fuel →
      ∃ pts : List Vertex, resamplePath fuel vertices n = some pts ∧ pts.length = n) ∧
    (totalLength vertices = 0 → ∀ fuel : ℕ, ∃ (v0 last : Vertex),
      vertices.head? = some v0 ∧ vertices.getLast? = some last ∧
      resamplePath fuel vertices n = some (v0 :: List.replicate (n - 1) last)) := by
  obtain ⟨v0, v1, rest, rfl⟩ : ∃ v0 v1 rest, vertices = v0 :: v1 :: rest := by
    match vertices, hlen with
    | v0 :: v1 :: rest, _ => exact ⟨v0, v1, rest, rfl⟩
  have hzero : totalLength (v0 :: v1 :: rest) = 0 → ∀ fuel : ℕ,
      resamplePath fuel (v0 :: v1 :: rest) n
        = some (v0 :: List.replicate (n - 1)
            ((v1 :: rest).getLast (List.cons_ne_nil v1 rest))) := by
    intro h0 fuel
    rw [resamplePath_of_totalLength_eq_zero fuel v0 v1 rest n h0, List.take_of_length_le]
    simp; omega
  constructor
  · intro fuel hf
    by_cases h0 : totalLength (v0 :: v1 :: rest) = 0
    · exact ⟨_, hzero h0 fuel, by simp; omega⟩
    · have hpos : 0 < totalLength (v0 :: v1 :: rest) :=
        lt_of_le_of_ne (totalLength_nonneg _) (Ne.symm h0)
      exact ⟨_, resamplePath_eq v0 v1 rest n fuel hpos hn hf, by simp⟩
  · intro h0 fuel
    refine ⟨v0, (v1 :: rest).getLast (List.cons_ne_nil v1 rest), rfl, ?_, hzero h0 fuel⟩
    rw [List.getLast?_eq_getLast _ (List.cons_ne_nil _ _), List.getLast_cons (List.cons_ne_nil _ _)]

/-- Witness of C11: two equal vertices, a path of zero length, resampled to 3 points. -/
theorem resamplePath_count_degenerate_witness :
    2 ≤ ([⟨1, 1⟩, ⟨1, 1⟩] : List Vertex).length ∧ 2 ≤ 3 ∧
    ∀ fuel : ℕ, 3 ≤ fuel →
      ∃ pts : List Vertex, resamplePath fuel [⟨1, 1⟩, ⟨1, 1⟩] 3 = some pts ∧ pts.length = 3 :=
  ⟨by decide, by decide, (resamplePath_count_degenerate [⟨1, 1⟩, ⟨1, 1⟩] 3 (by decide) (by decide)).1⟩

/-- Counterexample to C12 as stated: two equal vertices have total length 0, and with
`n = 3` the result has 3 points: it is not the input. -/
theorem resamplePath_zero_length_counterexample :
    totalLength [⟨1, 1⟩, ⟨1, 1⟩] = 0 ∧
    resamplePath 0 [⟨1, 1⟩, ⟨1, 1⟩] 3 = some [⟨1, 1⟩, ⟨1, 1⟩, ⟨1, 1⟩] ∧
    resamplePath 0 [⟨1, 1⟩, ⟨1, 1⟩] 3 ≠ some [⟨1, 1⟩, ⟨1, 1⟩] := by
  have h0 : totalLength [⟨1, 1⟩, ⟨1, 1⟩] = 0 := by
    simp [totalLength, totalLengthFrom, distance]
  have hr : resamplePath 0 [⟨1, 1⟩, ⟨1, 1⟩] 3 = some [⟨1, 1⟩, ⟨1, 1⟩, ⟨1, 1⟩] := by
    rw [resamplePath_of_totalLength_eq_zero 0 _ _ _ 3 h0]
    rfl
  refine ⟨h0, hr, ?_⟩
  rw [hr]
  intro h
  have := congrArg List.length (Option.some.inj h)
  simp at this

/-- Claim C12, amended: a vertex list with fewer than 2 vertices is returned unchanged for
every `n`; a list of 2 or more vertices of total length 0 (all of them one point `v0`) gives
`n` copies of `v0`, which is the input only when `n` is its length. -/
theorem resamplePath_degenerate (vertices : List Vertex) (n fuel : ℕ) :
    (vertices.length < 2 → resamplePath fuel vertices n = some vertices) ∧
    (2 ≤ vertices.length → totalLength vertices = 0 →
      ∃ v0 : Vertex, vertices = List.replicate vertices.length v0 ∧
        resamplePath fuel vertices n = some (List.replicate n v0) ∧
        (resamplePath fuel vertices n = some vertices ↔ n = vertices.length)) := by
  constructor
  · intro h
    match vertices, h with
    | [], _ => rfl
    | [_], _ => rfl
  · intro hlen h0
    obtain ⟨v0, v1, rest, rfl⟩ : ∃ v0 v1 rest, vertices = v0 :: v1 :: rest := by
      match vertices, hlen with
      | v0 :: v1 :: rest, _ => exact ⟨v0, v1, rest, rfl⟩
    have hrep := eq_replicate_of_totalLength_eq_zero v0 (v1 :: rest) h0
    have hlast : (v1 :: rest).getLast (List.cons_ne_nil v1 rest) = v0 := by
      have := getLast_of_totalLength_eq_zero v0 (v1 :: rest) h0
      rwa [List.getLast_cons (List.cons_ne_nil v1 rest)] at this
    have hres : resamplePath fuel (v0 :: v1 :: rest) n = some (List.replicate n v0) := by
      rw [resamplePath_of_totalLength_eq_zero fuel v0 v1 rest n h0, hlast]
      congr 1
      cases n with
      | zero => rfl
      | succ m =>
        rw [Nat.add_sub_cancel, ← List.replicate_succ, List.take_of_length_le (by simp)]
    refine ⟨v0, hrep, hres, ?_⟩
    rw [hres]
    constructor
    · intro h
      have := congrArg List.length (Option.some.inj h)
      simpa using this
    · intro h
      rw [h]
      exact congrArg some hrep.symm

theorem walkSegments_terminates (v0 v1 : Vertex) (rest : List Vertex) (n fuel : ℕ)
    (hn : 2 ≤ n) (hf : n ≤ fuel) :
    ∃ (dist : ℝ) (pts : List Vertex),
      walkSegments fuel (some (totalLength (v0 :: v1 :: rest) / ((n : ℝ) - 1)))
        (v0 :: v1 :: rest) (0, [v0]) = some (dist, pts) ∧ pts.length ≤ n := by
  by_cases h0 : totalLength (v0 :: v1 :: rest) = 0
  · exact ⟨0, [v0], walkSegments_of_totalLength_eq_zero fuel _ _ _ h0, by simp; omega⟩
  · have hL : 0 < totalLength (v0 :: v1 :: rest) :=
      lt_of_le_of_ne (totalLength_nonneg _) (Ne.symm h0)
    have hn1 : (0 : ℝ) < (n : ℝ) - 1 := by
      have : (2 : ℝ) ≤ n := by exact_mod_cast hn
      linarith
    have hδ : 0 < totalLength (v0 :: v1 :: rest) / ((n : ℝ) - 1) := div_pos hL hn1
    have hcast : ((n - 1 : ℕ) : ℝ) = (n : ℝ) - 1 := by
      rw [Nat.cast_sub (by omega)]; simp
    have hMδ : ((n - 1 : ℕ) : ℝ) * (totalLength (v0 :: v1 :: rest) / ((n : ℝ) - 1))
        = totalLength (v0 :: v1 :: rest) := by
      rw [hcast]; field_simp
    obtain ⟨dist', hw⟩ := walkSegments_samples _ hδ fuel (v0 :: v1 :: rest)
      (n - 1) 0 [v0] le_rfl hδ (by rw [hMδ]; linarith)
      (by rw [add_mul, hMδ]; linarith) (by omega)
    exact ⟨dist', _, hw, by simp; omega⟩

/-- Claim C20 (resampler termination): for a vertex list with at least 2 vertices and
`n ≥ 2`, over exact arithmetic every inner `while` loop of `resamplePath` ends within `n`
passes, the walk leaves at most `1 + (n - 1)` points (the first vertex and at most `n - 1`
emitted ones) and `resamplePath` returns. In a pass that emits, the distance
`interval - distSinceLastSample` is positive and `segmentDist` drops by it; a pass that does
not emit makes the loop condition false and adds no point. -/
theorem resamplePath_terminates (vertices : List Vertex) (n : ℕ) (hlen : 2 ≤ vertices.length)
    (hn : 2 ≤ n) :
    (∀ fuel : ℕ, n ≤ fuel →
      (∃ (dist : ℝ) (pts : List Vertex),
        walkSegments fuel (some (totalLength vertices / ((n : ℝ) - 1))) vertices
          (0, vertices.take 1) = some (dist, pts) ∧ pts.length ≤ 1 + (n - 1)) ∧
      ∃ out : List Vertex, resamplePath fuel vertices n = some out) ∧
    (∀ (δ : ℝ) (p2 : Vertex) (s : WalkState),
      0 ≤ s.distSinceLastSample → s.distSinceLastSample < δ →
      0 ≤ s.currentPosOnSegment → s.currentPosOnSegment < s.segmentDist →
      s.segmentDist = distance s.p1 p2 →
      (δ - s.distSinceLastSample ≤ s.segmentDist - s.currentPosOnSegment →
        0 < δ - s.distSinceLastSample ∧
        (whileBody (some δ) p2 s).segmentDist
          = s.segmentDist - (δ - s.distSinceLastSample) ∧
        (whileBody (some δ) p2 s).currentPosOnSegment = 0 ∧
        (whileBody (some δ) p2 s).newPoints.length = s.newPoints.length + 1) ∧
      (¬ (δ - s.distSinceLastSample ≤ s.segmentDist - s.currentPosOnSegment) →
        ¬ ((whileBody (some δ) p2 s).currentPosOnSegment
            < (whileBody (some δ) p2 s).segmentDist) ∧
        (whileBody (some δ) p2 s).newPoints = s.newPoints)) := by
  obtain ⟨v0, v1, rest, rfl⟩ : ∃ v0 v1 rest, vertices = v0 :: v1 :: rest := by
    match vertices, hlen with
    | v0 :: v1 :: rest, _ => exact ⟨v0, v1, rest, rfl⟩
  constructor
  · intro fuel hf
    obtain ⟨dist, pts, hw, hl⟩ := walkSegments_terminates v0 v1 rest n fuel hn hf
    refine ⟨⟨dist, pts, hw, by omega⟩, ?_⟩
    have hne : ¬ ((n : ℝ) - 1 = 0) := by
      have : (2 : ℝ) ≤ n := by exact_mod_cast hn
      intro h; linarith
    unfold resamplePath
    simp only [if_neg hne]
    rw [hw]
    exact ⟨_, rfl⟩
  · intro δ p2 s h0 h1 hc0 hc hseg
    constructor
    · intro hle
      have hpos : 0 < δ - s.distSinceLastSample := by linarith
      have hsd : 0 < s.segmentDist := by linarith
      have hratio : (δ - s.distSinceLastSample) / s.segmentDist ≤ 1 := by
        rw [div_le_one hsd]; linarith
      have hb : whileBody (some δ) p2 s
          = ⟨interpolate s.p1 p2 ((δ - s.distSinceLastSample) / s.segmentDist),
              distance (interpolate s.p1 p2 ((δ - s.distSinceLastSample) / s.segmentDist)) p2,
              0, 0,
              s.newPoints ++ [interpolate s.p1 p2 ((δ - s.distSinceLastSample) / s.segmentDist)]⟩ := by
        simp only [whileBody]
        rw [if_pos hle]
        rfl
      rw [hb]
      refine ⟨hpos, ?_, rfl, by simp⟩
      show distance (interpolate s.p1 p2 ((δ - s.distSinceLastSample) / s.segmentDist)) p2 = _
      rw [distance_interpolate _ _ _ hratio, ← hseg]
      field_simp
    · intro hno
      have hb : whileBody (some δ) p2 s
          = ⟨s.p1, s.segmentDist, s.segmentDist,
              s.distSinceLastSample + (s.segmentDist - s.currentPosOnSegment), s.newPoints⟩ := by
        simp only [whileBody]
        rw [if_neg hno]
      rw [hb]
      exact ⟨lt_irrefl _, rfl⟩

/-- Witness of C20: the segment from `(0, 0)` to `(1, 0)` with `n = 2`. -/
theorem resamplePath_terminates_witness :
    2 ≤ ([⟨0, 0⟩, ⟨1, 0⟩] : List Vertex).length ∧ 2 ≤ 2 ∧
    ∀ fuel : ℕ, 2 ≤ fuel →
      (∃ (dist : ℝ) (pts : List Vertex),
        walkSegments fuel (some (totalLength [⟨0, 0⟩, ⟨1, 0⟩] / (((2 : ℕ) : ℝ) - 1)))
          [⟨0, 0⟩, ⟨1, 0⟩] (0, ([⟨0, 0⟩, ⟨1, 0⟩] : List Vertex).take 1)
            = some (dist, pts) ∧ pts.length ≤ 1 + (2 - 1)) ∧
      ∃ out : List Vertex, resamplePath fuel [⟨0, 0⟩, ⟨1, 0⟩] 2 = some out :=
  ⟨by decide, le_rfl, (resamplePath_terminates [⟨0, 0⟩, ⟨1, 0⟩] 2 (by decide) le_rfl).1⟩

/-! ## The parser -/

theorem parseSVGPath_eq (d : String) :
    parseSVGPath d
      = if d.toList.any (fun c => c == 'Z' || c == 'z') && (parsedVertices d).length > 0 then
          parsedVertices d ++ (parsedVertices d).take 1
        else parsedVertices d := rfl

theorem any_close_iff (d : String) :
    d.toList.any (fun c => c == 'Z' || c == 'z') = true ↔ ('Z' ∈ d.toList ∨ 'z' ∈ d.toList) := by
  simp only [List.any_eq_true, Bool.or_eq_true, beq_iff_eq]
  constructor
  · rintro ⟨c, hc, rfl | rfl⟩
    · exact Or.inl hc
    · exact Or.inr hc
  · rintro (h | h)
    · exact ⟨_, h, Or.inl rfl⟩
    · exact ⟨_, h, Or.inr rfl⟩

/-- Claim C15 (close-path handling): when `d` contains `Z` or `z` and at least one
coordinate pair parses, `parseSVGPath` returns the parsed vertices followed by one more
element, the first vertex, so that the last equals the first and the length is the parsed
count plus 1; when `d` contains no close marker nothing is appended (nor when nothing
parses). -/
theorem close_path_appends_first (d : String) :
    ((('Z' ∈ d.toList ∨ 'z' ∈ d.toList) ∧ parsedVertices d ≠ []) →
      ∃ (v : RawVertex) (rest : List RawVertex), parsedVertices d = v :: rest ∧
        parseSVGPath d = parsedVertices d ++ [v] ∧
        (parseSVGPath d).length = (parsedVertices d).length + 1 ∧
        (parseSVGPath d).head? = some v ∧ (parseSVGPath d).getLast? = some v) ∧
    (¬ ('Z' ∈ d.toList ∨ 'z' ∈ d.toList) → parseSVGPath d = parsedVertices d) ∧
    (parsedVertices d = [] → parseSVGPath d = []) := by
  refine ⟨?_, ?_, ?_⟩
  · rintro ⟨hz, hne⟩
    obtain ⟨v, rest, hv⟩ : ∃ v rest, parsedVertices d = v :: rest := by
      cases h : parsedVertices d with
      | nil => exact absurd h hne
      | cons v rest => exact ⟨v, rest, rfl⟩
    have hany := (any_close_iff d).mpr hz
    have hp : parseSVGPath d = parsedVertices d ++ [v] := by
      rw [parseSVGPath_eq, hany, hv]
      simp
    refine ⟨v, rest, hv, hp, ?_, ?_, ?_⟩
    · rw [hp]; simp
    · rw [hp, hv]; simp
    · rw [hp]; simp
  · intro hz
    have hany : d.toList.any (fun c => c == 'Z' || c == 'z') = false := by
      rw [← Bool.not_eq_true, any_close_iff]
      exact hz
    rw [parseSVGPath_eq, hany]
    simp
  · intro h
    rw [parseSVGPath_eq, h]
    simp

theorem pairCoords_eq (coords : List JSNumber) :
    pairCoords coords = (positionalPairs coords).filterMap pairVertex := by
  induction coords using pairCoords.induct with
  | case1 a b rest h ih =>
    rw [pairCoords, if_pos h, positionalPairs, List.filterMap_cons, ih]
    have : pairVertex (a, some b) = some ⟨a, b⟩ := by
      simp only [pairVertex]
      rw [if_neg]
      simpa using h
    rw [this]
  | case2 a b rest h ih =>
    rw [pairCoords, if_neg h, positionalPairs, List.filterMap_cons, ih]
    have : pairVertex (a, some b) = none := by
      simp only [pairVertex]
      rw [if_pos]
      cases ha : a.isNaN <;> cases hb : b.isNaN <;> simp [ha, hb] at h ⊢
    rw [this]
  | case3 coords h =>
    match coords, h with
    | [], _ => rfl
    | [a], _ => rfl
    | a :: b :: rest, h => exact absurd rfl (h a b rest)

theorem pairCoords_not_nan (coords : List JSNumber) :
    ∀ v ∈ pairCoords coords, v.x.isNaN = false ∧ v.y.isNaN = false := by
  induction coords using pairCoords.induct with
  | case1 a b rest h ih =>
    rw [pairCoords, if_pos h]
    intro v hv
    rcases List.mem_cons.mp hv with rfl | hv
    · simpa using h
    · exact ih v hv
  | case2 a b rest h ih =>
    rw [pairCoords, if_neg h]
    exact ih
  | case3 coords h =>
    match coords, h with
    | [], _ => intro v hv; simp [pairCoords] at hv
    | [a], _ => intro v hv; simp [pairCoords] at hv
    | a :: b :: rest, h => exact absurd rfl (h a b rest)

theorem parsedVertices_not_nan (d : String) :
    ∀ v ∈ parsedVertices d, v.x.isNaN = false ∧ v.y.isNaN = false := by
  intro v hv
  simp only [parsedVertices, List.mem_flatMap] at hv
  obtain ⟨ps, -, hv⟩ := hv
  exact pairCoords_not_nan _ v hv

/-- Claim C18 (malformed coordinates are dropped): no vertex returned by `parseSVGPath` has
a `NaN` coordinate; in each chunk the tokens are paired by position and a pair gives a vertex
exactly when both of its tokens are numbers, the vertices kept in order. For instance
`M1,x 2,3 L4` gives the one vertex `(2, 3)`: the pair `1, x` and the lone `4` are dropped. -/
theorem malformed_pairs_dropped (d : String) :
    (∀ v ∈ parseSVGPath d, v.x ≠ JSNumber.nan ∧ v.y ≠ JSNumber.nan) ∧
    parsedVertices d
      = ((pointChunks d).flatMap fun ps =>
          (positionalPairs (chunkCoords ps)).filterMap pairVertex) ∧
    parseSVGPath "M1,x 2,3 L4" = [⟨.fin 2, .fin 3⟩] := by
  refine ⟨?_, ?_, by decide⟩
  · intro v hv
    have hmem : v ∈ parsedVertices d := by
      rw [parseSVGPath_eq] at hv
      split_ifs at hv
      · rcases List.mem_append.mp hv with h | h
        · exact h
        · exact List.mem_of_mem_take h
      · exact hv
    have := parsedVertices_not_nan d v hmem
    constructor
    · intro h; rw [h] at this; simp [JSNumber.isNaN] at this
    · intro h; rw [h] at this; simp [JSNumber.isNaN] at this
  · simp only [parsedVertices, pairCoords_eq]

/-! ## The coefficients of the transform -/

theorem dft_getElem? (points : List Vertex) (k : ℕ) (hk : k < points.length) :
    (dft points)[k]? = some ⟨(k : ℤ),
      Real.sqrt ((dftComplex points k).re * (dftComplex points k).re
        + (dftComplex points k).im * (dftComplex points k).im),
      atan2 (dftComplex points k).im (dftComplex points k).re⟩ := by
  simp [dft, List.getElem?_range hk, dftComplex]

theorem dftComplex_eq_exp (points : List Vertex) (k : ℕ) :
    dftComplex points k
      = (1 / (points.length : ℂ)) * ∑ n in Finset.range points.length,
          sampleComplex points n
            * Complex.exp (-(2 * Real.pi * Complex.I * k * n / points.length)) := by
  rw [dftComplex_eq]
  congr 1
  refine Finset.sum_congr rfl fun n _ => ?_
  congr 1
  rw [← Complex.exp_nat_mul, ← Complex.exp_neg]
  congr 1
  push_cast
  ring

/-- Claim C16 (DFT coefficient definition): for a sample list of length `N` and `k < N`,
`dft` returns `N` coefficients and coefficient `k` has `freq = k`, `amp ≥ 0`, `phase` in
`(-π, π]` and `amp * (cos(phase) + i sin(phase))` equal to
`(1/N) * Σ_n (x_n + i y_n) * exp(-2πi k n / N)`: `amp` is the modulus and `phase` the `atan2`
of the imaginary and real parts of that normalised sum. -/
theorem dft_coefficient (points : List Vertex) (k : ℕ) (hk : k < points.length) :
    (dft points).length = points.length ∧
    ∃ c : Coeff, (dft points)[k]? = some c ∧ c.freq = (k : ℤ) ∧ 0 ≤ c.amp ∧
      -Real.pi < c.phase ∧ c.phase ≤ Real.pi ∧
      (c.amp : ℂ) * (Complex.cos c.phase + Complex.sin c.phase * Complex.I)
        = (1 / (points.length : ℂ)) * ∑ n in Finset.range points.length,
            sampleComplex points n
              * Complex.exp (-(2 * Real.pi * Complex.I * k * n / points.length)) ∧
      c.amp = Complex.abs ((1 / (points.length : ℂ)) * ∑ n in Finset.range points.length,
            sampleComplex points n
              * Complex.exp (-(2 * Real.pi * Complex.I * k * n / points.length))) ∧
      c.phase = atan2
        ((1 / (points.length : ℂ)) * ∑ n in Finset.range points.length,
            sampleComplex points n
              * Complex.exp (-(2 * Real.pi * Complex.I * k * n / points.length))).im
        ((1 / (points.length : ℂ)) * ∑ n in Finset.range points.length,
            sampleComplex points n
              * Complex.exp (-(2 * Real.pi * Complex.I * k * n / points.length))).re := by
  refine ⟨length_dft points, _, dft_getElem? points k hk, rfl, Real.sqrt_nonneg _, ?_, ?_, ?_, ?_, ?_⟩
  · exact Complex.neg_pi_lt_arg _
  · exact Complex.arg_le_pi _
  · rw [← dftComplex_eq_exp]
    have habs : Real.sqrt ((dftComplex points k).re * (dftComplex points k).re
        + (dftComplex points k).im * (dftComplex points k).im)
        = Complex.abs (dftComplex points k) := by
      rw [Complex.abs_apply, Complex.normSq_apply]
    show ((Real.sqrt _ : ℝ) : ℂ) * (Complex.cos ((Complex.arg _ : ℝ) : ℂ)
      + Complex.sin ((Complex.arg _ : ℝ) : ℂ) * Complex.I) = _
    rw [habs, Complex.eta]
    exact Complex.abs_mul_cos_add_sin_mul_I _
  · rw [← dftComplex_eq_exp]
    show Real.sqrt _ = _
    rw [Complex.abs_apply, Complex.normSq_apply]
  · rw [← dftComplex_eq_exp]

/-- Witness of C16: two samples and `k = 1`. -/
theorem dft_coefficient_witness :
    1 < [(⟨3, 4⟩ : Vertex), ⟨-1, 2⟩].length ∧
    (dft [⟨3, 4⟩, ⟨-1, 2⟩]).length = [(⟨3, 4⟩ : Vertex), ⟨-1, 2⟩].length ∧
    ∃ c : Coeff, (dft [⟨3, 4⟩, ⟨-1, 2⟩])[1]? = some c ∧ c.freq = ((1 : ℕ) : ℤ) ∧ 0 ≤ c.amp ∧
      -Real.pi < c.phase ∧ c.phase ≤ Real.pi := by
  obtain ⟨hl, c, h1, h2, h3, h4, h5, _⟩ := dft_coefficient [⟨3, 4⟩, ⟨-1, 2⟩] 1 (by decide)
  exact ⟨by decide, hl, c, h1, h2, h3, h4, h5⟩

/-! ## The scale of `setup` and the start of the animation -/

theorem toVertices_length (raw : List RawVertex) (vs : List Vertex)
    (h : toVertices raw = some vs) : vs.length = raw.length := by
  induction raw generalizing vs with
  | nil =>
    simp only [toVertices, Option.some.injEq] at h
    subst h
    rfl
  | cons r rs ih =>
    unfold toVertices at h
    split at h
    · rename_i v ws _ hws
      simp only [Option.some.injEq] at h
      rw [← h, List.length_cons, List.length_cons, ih ws hws]
    · exact absurd h (by simp)

theorem setup_ne_nonFinite (fuel : ℕ) (d : String) (state : State) (vs : List Vertex)
    (scale : ℝ) (hv : toVertices (parseSVGPath d) = some vs)
    (hs : computeScale state.canvasSize (computeBounds vs) = some scale) :
    setup fuel d state ≠ SetupResult.nonFinite := by
  unfold setup
  simp only [hv, hs]
  split_ifs
  · simp
  · split <;> simp

theorem computeScale_zero_width (canvasSize : CanvasSize) (bounds : Bounds)
    (hw : 0 < canvasSize.width)
    (hx : bounds.maxX.toReal - bounds.minX.toReal = 0)
    (hy : bounds.maxY.toReal - bounds.minY.toReal ≠ 0) :
    computeScale canvasSize bounds
      = some (canvasSize.height / (bounds.maxY.toReal - bounds.minY.toReal) * 0.8) := by
  unfold computeScale
  simp only [hx, jsDiv, if_true, if_neg (ne_of_gt hw), if_pos hw, if_neg hy, jsMin, min_eq_right le_top,
    EReal.coe_ne_top, EReal.coe_ne_bot, or_self, if_false, EReal.toReal_coe]

theorem computeScale_zero_height (canvasSize : CanvasSize) (bounds : Bounds)
    (hh : 0 < canvasSize.height)
    (hx : bounds.maxX.toReal - bounds.minX.toReal ≠ 0)
    (hy : bounds.maxY.toReal - bounds.minY.toReal = 0) :
    computeScale canvasSize bounds
      = some (canvasSize.width / (bounds.maxX.toReal - bounds.minX.toReal) * 0.8) := by
  unfold computeScale
  simp only [hy, jsDiv, if_true, if_neg (ne_of_gt hh), if_pos hh, if_neg hx, jsMin, min_eq_left le_top,
    EReal.coe_ne_top, EReal.coe_ne_bot, or_self, if_false, EReal.toReal_coe]

theorem computeScale_zero_both (canvasSize : CanvasSize) (bounds : Bounds)
    (hx : bounds.maxX.toReal - bounds.minX.toReal = 0)
    (hy : bounds.maxY.toReal - bounds.minY.toReal = 0) :
    computeScale canvasSize bounds = none := by
  unfold computeScale
  simp only [hx, hy, jsDiv, if_true]
  by_cases hw0 : canvasSize.width = 0
  · simp [hw0, jsMin]
  · by_cases hh0 : canvasSize.height = 0
    · simp only [hh0, if_true, jsMin]
      split_ifs <;> rfl
    · simp only [if_neg hw0, if_neg hh0]
      by_cases hw : 0 < canvasSize.width <;> by_cases hh : 0 < canvasSize.height <;>
        simp [hw, hh, jsMin]

/-- Counterexample to C13 as stated: for the single vertex of `M5,5` on a 10 by 10 canvas
the width of the bounding box is 0, `setup` divides by it (the quotient is `Infinity`), the
scale is not finite, and the run ends with coordinates that are not finite. -/
theorem scale_divides_by_zero_counterexample :
    parseSVGPath "M5,5" = [⟨.fin 5, .fin 5⟩] ∧
    toVertices (parseSVGPath "M5,5") = some [⟨5, 5⟩] ∧
    (computeBounds [⟨5, 5⟩]).maxX.toReal - (computeBounds [⟨5, 5⟩]).minX.toReal = 0 ∧
    jsDiv 10 ((computeBounds [⟨5, 5⟩]).maxX.toReal - (computeBounds [⟨5, 5⟩]).minX.toReal)
      = some ⊤ ∧
    computeScale ⟨10, 10⟩ (computeBounds [⟨5, 5⟩]) = none ∧
    setup 0 "M5,5" ⟨[], none, 2000, ⟨10, 10⟩⟩ = SetupResult.nonFinite := by
  have hparse : parseSVGPath "M5,5" = [⟨.fin 5, .fin 5⟩] := by decide
  have hvs : toVertices [⟨.fin 5, .fin 5⟩] = some [⟨5, 5⟩] := by
    simp [toVertices, RawVertex.toVertex]
  have hb : computeBounds [⟨5, 5⟩] = ⟨(5 : ℝ), (5 : ℝ), (5 : ℝ), (5 : ℝ)⟩ := by
    simp [computeBounds]
  have hx : (computeBounds [⟨5, 5⟩]).maxX.toReal - (computeBounds [⟨5, 5⟩]).minX.toReal = 0 := by
    rw [hb]; simp
  have hy : (computeBounds [⟨5, 5⟩]).maxY.toReal - (computeBounds [⟨5, 5⟩]).minY.toReal = 0 := by
    rw [hb]; simp
  have hs := computeScale_zero_both ⟨10, 10⟩ (computeBounds [⟨5, 5⟩]) hx hy
  refine ⟨hparse, by rw [hparse, hvs], hx, ?_, hs, ?_⟩
  · rw [hx]
    norm_num [jsDiv]
  · unfold setup
    simp only [hparse, hvs, hs]
    rw [if_neg (by decide)]

/-- Claim C13, amended: `setup` has no guard against a bounding box of zero width or zero
height and does divide by zero. On a canvas of positive width and height, when exactly one
of the two extents is zero the quotient `Infinity` is discarded by `Math.min`, the scale is
`0.8` times the other quotient, a finite number, and the run does not leave the finite
numbers. -/
theorem scale_degenerate_box (fuel : ℕ) (d : String) (state : State) (vs : List Vertex)
    (hv : toVertices (parseSVGPath d) = some vs)
    (hw : 0 < state.canvasSize.width) (hh : 0 < state.canvasSize.height) :
    (((computeBounds vs).maxX.toReal - (computeBounds vs).minX.toReal = 0 ∧
        (computeBounds vs).maxY.toReal - (computeBounds vs).minY.toReal ≠ 0) →
      jsDiv state.canvasSize.width
          ((computeBounds vs).maxX.toReal - (computeBounds vs).minX.toReal) = some ⊤ ∧
      computeScale state.canvasSize (computeBounds vs)
        = some (state.canvasSize.height
            / ((computeBounds vs).maxY.toReal - (computeBounds vs).minY.toReal) * 0.8) ∧
      setup fuel d state ≠ SetupResult.nonFinite) ∧
    (((computeBounds vs).maxX.toReal - (computeBounds vs).minX.toReal ≠ 0 ∧
        (computeBounds vs).maxY.toReal - (computeBounds vs).minY.toReal = 0) →
      jsDiv state.canvasSize.height
          ((computeBounds vs).maxY.toReal - (computeBounds vs).minY.toReal) = some ⊤ ∧
      computeScale state.canvasSize (computeBounds vs)
        = some (state.canvasSize.width
            / ((computeBounds vs).maxX.toReal - (computeBounds vs).minX.toReal) * 0.8) ∧
      setup fuel d state ≠ SetupResult.nonFinite) := by
  refine ⟨?_, ?_⟩
  · rintro ⟨hx, hy⟩
    have hs := computeScale_zero_width state.canvasSize (computeBounds vs) hw hx hy
    refine ⟨?_, hs, setup_ne_nonFinite fuel d state vs _ hv hs⟩
    rw [hx]
    simp [jsDiv, ne_of_gt hw, hw]
  · rintro ⟨hx, hy⟩
    have hs := computeScale_zero_height state.canvasSize (computeBounds vs) hh hx hy
    refine ⟨?_, hs, setup_ne_nonFinite fuel d state vs _ hv hs⟩
    rw [hy]
    simp [jsDiv, ne_of_gt hh, hh]

/-- Witness of C13: the vertical segment `M0,0 L0,10` on a 10 by 10 canvas. -/
theorem scale_degenerate_box_witness :
    toVertices (parseSVGPath "M0,0 L0,10") = some [⟨0, 0⟩, ⟨0, 10⟩] ∧
    (0 : ℝ) < (⟨[], none, 2000, ⟨10, 10⟩⟩ : State).canvasSize.width ∧
    (0 : ℝ) < (⟨[], none, 2000, ⟨10, 10⟩⟩ : State).canvasSize.height ∧
    ((computeBounds [⟨0, 0⟩, ⟨0, 10⟩]).maxX.toReal
        - (computeBounds [⟨0, 0⟩, ⟨0, 10⟩]).minX.toReal = 0 ∧
      (computeBounds [⟨0, 0⟩, ⟨0, 10⟩]).maxY.toReal
        - (computeBounds [⟨0, 0⟩, ⟨0, 10⟩]).minY.toReal ≠ 0) ∧
    setup 2000 "M0,0 L0,10" ⟨[], none, 2000, ⟨10, 10⟩⟩ ≠ SetupResult.nonFinite := by
  have hparse : parseSVGPath "M0,0 L0,10" = [⟨.fin 0, .fin 0⟩, ⟨.fin 0, .fin 10⟩] := by decide
  have hvs : toVertices (parseSVGPath "M0,0 L0,10") = some [⟨0, 0⟩, ⟨0, 10⟩] := by
    rw [hparse]
    simp [toVertices, RawVertex.toVertex]
  have hb : computeBounds [⟨0, 0⟩, ⟨0, 10⟩] = ⟨(0 : ℝ), (0 : ℝ), (0 : ℝ), (10 : ℝ)⟩ := by
    simp [computeBounds]
  have hdeg : ((computeBounds [⟨0, 0⟩, ⟨0, 10⟩]).maxX.toReal
        - (computeBounds [⟨0, 0⟩, ⟨0, 10⟩]).minX.toReal = 0 ∧
      (computeBounds [⟨0, 0⟩, ⟨0, 10⟩]).maxY.toReal
        - (computeBounds [⟨0, 0⟩, ⟨0, 10⟩]).minY.toReal ≠ 0) := by
    rw [hb]
    simp
  have hw : (0 : ℝ) < (⟨[], none, 2000, ⟨10, 10⟩⟩ : State).canvasSize.width := by
    show (0 : ℝ) < 10
    norm_num
  exact ⟨hvs, hw, hw, hdeg,
    ((scale_degenerate_box 2000 "M0,0 L0,10" ⟨[], none, 2000, ⟨10, 10⟩⟩ _ hvs hw hw).1 hdeg).2.2⟩

theorem setup_alerted (fuel : ℕ) (d : String) (state : State) (h : parseSVGPath d = []) :
    setup fuel d state = SetupResult.alerted := by
  unfold setup
  simp [h]

/-- Claim C14, the code at the failing input: from the path data `Z` the parser extracts no
vertex and `setup` returns at its alert, leaving `fourierCoeffs` `null` and `pathTrace`
empty; `drawSvg` all the same creates the worker and posts that state to it (unlike its own
branch for a missing `path` element, which posts nothing), and the first frame of `animate`
on that state throws. -/
theorem drawSvg_posts_after_alert :
    parseSVGPath "Z" = [] ∧
    (∀ (fuel : ℕ) (state : State), setup fuel "Z" state = SetupResult.alerted) ∧
    (∀ (fuel : ℕ) (width height : ℝ),
      drawSvg fuel (some "Z") width height
        = some ⟨some Alert.noCoordinates, some ⟨[], none, 2000, ⟨width, height⟩⟩⟩) ∧
    (∀ (fuel : ℕ) (width height : ℝ),
      drawSvg fuel none width height = some ⟨some Alert.noPathElement, none⟩) ∧
    (∀ (width height dpr : ℝ), animate ⟨[], none, 2000, ⟨width, height⟩⟩ 0 dpr = none) := by
  have hparse : parseSVGPath "Z" = [] := by decide
  refine ⟨hparse, fun fuel state => setup_alerted fuel "Z" state hparse, ?_, ?_, ?_⟩
  · intro fuel width height
    unfold drawSvg
    simp only [setup_alerted fuel "Z" _ hparse]
  · intro fuel width height
    rfl
  · intro width height dpr
    rfl

/-! ## The trail of `animate` -/

theorem jsRem_of_nonneg (a : ℤ) (N : ℕ) (ha : 0 ≤ a) (hN : 1 ≤ N) :
    jsRem a (N : ℤ) = some (a % (N : ℤ)) := by
  unfold jsRem
  rw [if_neg (by omega), Int.tmod_eq_emod ha (by omega)]

theorem segment_offset_le (N c : ℕ) :
    (((gradients - c : ℕ) : ℤ) * ((N / gradients : ℕ) : ℤ)) ≤ (N : ℤ) := by
  have h1 : (gradients - c) * (N / gradients) ≤ gradients * (N / gradients) :=
    Nat.mul_le_mul_right _ (Nat.sub_le _ _)
  have h2 : gradients * (N / gradients) ≤ N := Nat.mul_div_le N gradients
  exact_mod_cast h1.trans h2

theorem forRange_add (a : ℤ) (k : ℕ) :
    forRange a (a + (k : ℤ)) = (List.range (k + 1)).map fun (t : ℕ) => a + (t : ℤ) := by
  unfold forRange
  have : (a + (k : ℤ) + 1 - a).toNat = k + 1 := by omega
  rw [this]

theorem segmentStart_eq (N frame c : ℕ) (hN : 1 ≤ N) :
    segmentStart N frame c
      = some (((frame : ℤ) - ((gradients - c : ℕ) : ℤ) * ((N / gradients : ℕ) : ℤ)) % (N : ℤ)) := by
  unfold segmentStart
  have hle := segment_offset_le N c
  simp only
  rw [jsRem_of_nonneg _ N (by omega) hN, Int.add_emod_self]

theorem segmentIndices_eq (N frame c : ℕ) (hN : 1 ≤ N) :
    segmentIndices N frame c
      = (List.range (N / gradients + 1)).map fun (t : ℕ) =>
          some (((frame : ℤ) - ((gradients - c : ℕ) : ℤ) * ((N / gradients : ℕ) : ℤ) + (t : ℤ))
            % (N : ℤ)) := by
  unfold segmentIndices
  have hle := segment_offset_le N c
  simp only
  have hb : (frame : ℤ) - (((gradients - c : ℕ) : ℤ) - 1) * ((N / gradients : ℕ) : ℤ)
      = ((frame : ℤ) - ((gradients - c : ℕ) : ℤ) * ((N / gradients : ℕ) : ℤ))
        + ((N / gradients : ℕ) : ℤ) := by ring
  rw [hb, forRange_add, List.map_map]
  refine List.map_congr_left fun t _ => ?_
  simp only [Function.comp_apply]
  rw [jsRem_of_nonneg _ N (by omega) hN, Int.add_emod_self]

theorem animateReads_in_range (N frame : ℕ) (hN : 1 ≤ N) :
    ∀ idx ∈ animateReads N frame, ∃ i : ℤ, idx = some i ∧ 0 ≤ i ∧ i < (N : ℤ) := by
  intro idx hidx
  have hpos : (0 : ℤ) < (N : ℤ) := by omega
  unfold animateReads at hidx
  rcases List.mem_cons.mp hidx with rfl | hidx
  · exact ⟨0, rfl, le_rfl, hpos⟩
  · obtain ⟨c, hc, hidx⟩ := List.mem_flatMap.mp hidx
    rcases List.mem_cons.mp hidx with rfl | hidx
    · exact ⟨_, segmentStart_eq N frame c hN, Int.emod_nonneg _ (by omega),
        Int.emod_lt_of_pos _ hpos⟩
    · rw [segmentIndices_eq N frame c hN] at hidx
      obtain ⟨t, -, rfl⟩ := List.mem_map.mp hidx
      exact ⟨_, rfl, Int.emod_nonneg _ (by omega), Int.emod_lt_of_pos _ hpos⟩

theorem traceAt_some (pathTrace : List Vertex) (idx : Option ℤ)
    (h : ∃ i : ℤ, idx = some i ∧ 0 ≤ i ∧ i < (pathTrace.length : ℤ)) :
    ∃ p : Vertex, traceAt pathTrace idx = some p := by
  obtain ⟨i, rfl, h0, h1⟩ := h
  have hlt : i.toNat < pathTrace.length := by omega
  exact ⟨pathTrace[i.toNat], by simp [traceAt, h0, List.getElem?_eq_getElem hlt]⟩

theorem lineTos_some (pathTrace : List Vertex) (idxs : List (Option ℤ))
    (h : ∀ idx ∈ idxs, ∃ i : ℤ, idx = some i ∧ 0 ≤ i ∧ i < (pathTrace.length : ℤ)) :
    ∃ ops : List FrameOp, lineTos pathTrace idxs = some ops := by
  induction idxs with
  | nil => exact ⟨[], rfl⟩
  | cons idx rest ih =>
    obtain ⟨p, hp⟩ := traceAt_some pathTrace idx (h idx (List.mem_cons_self _ _))
    obtain ⟨ops, hops⟩ := ih fun j hj => h j (List.mem_cons_of_mem _ hj)
    exact ⟨_, by rw [lineTos, hp, hops]⟩

theorem drawSegments_some (state : State) (frame : ℕ) (dpr : ℝ) (cs : List ℕ)
    (h : ∀ c ∈ cs, ∀ idx ∈ segmentStart state.numSamples frame c
        :: segmentIndices state.numSamples frame c,
      ∃ i : ℤ, idx = some i ∧ 0 ≤ i ∧ i < (state.pathTrace.length : ℤ)) :
    ∃ ops : List FrameOp, drawSegments state frame dpr cs = some ops := by
  induction cs with
  | nil => exact ⟨[], rfl⟩
  | cons c cs ih =>
    have hc := h c (List.mem_cons_self _ _)
    obtain ⟨p, hp⟩ := traceAt_some state.pathTrace _ (hc _ (List.mem_cons_self _ _))
    obtain ⟨ops, hops⟩ := lineTos_some state.pathTrace _
      fun j hj => hc j (List.mem_cons_of_mem _ hj)
    obtain ⟨more, hmore⟩ := ih fun c' hc' => h c' (List.mem_cons_of_mem _ hc')
    rw [drawSegments, drawSegment, hp, hops, hmore]
    exact ⟨_, rfl⟩

/-- Claim C19 (trail index safety): for every frame and every `N ≥ 1`, each index at which
`animate` reads `state.pathTrace` (index `0`, the `start` of each of the 128 segments and
each `idx` of its inner loop) is an integer in `[0, N)`; so on a trace of `N` entries every
read finds an entry and the frame is drawn. -/
theorem trail_index_safety (state : State) (frame : ℕ) (dpr : ℝ) (cs : List Coeff)
    (hN : 1 ≤ state.numSamples) (hlen : state.pathTrace.length = state.numSamples)
    (hcs : state.fourierCoeffs = some cs) :
    (∀ idx ∈ animateReads state.numSamples frame,
      ∃ i : ℤ, idx = some i ∧ 0 ≤ i ∧ i < (state.numSamples : ℤ)) ∧
    (∀ idx ∈ animateReads state.numSamples frame,
      ∃ p : Vertex, traceAt state.pathTrace idx = some p) ∧
    ∃ ops : List FrameOp, animate state frame dpr = some ops := by
  have hr := animateReads_in_range state.numSamples frame hN
  have hr' : ∀ idx ∈ animateReads state.numSamples frame,
      ∃ i : ℤ, idx = some i ∧ 0 ≤ i ∧ i < (state.pathTrace.length : ℤ) := by
    rw [hlen]; exact hr
  refine ⟨hr, fun idx hidx => traceAt_some _ _ (hr' idx hidx), ?_⟩
  obtain ⟨p, hp⟩ := traceAt_some state.pathTrace (some 0) (hr' _ (List.mem_cons_self _ _))
  obtain ⟨ops, hops⟩ := drawSegments_some state frame dpr (List.range gradients) (by
    intro c hc idx hidx
    apply hr'
    unfold animateReads
    exact List.mem_cons_of_mem _ (List.mem_flatMap.mpr ⟨c, hc, hidx⟩))
  unfold animate drawEpicycles
  simp only [hcs, hp, hops]
  exact ⟨_, rfl⟩

/-- Witness of C19: a trace of 2 entries, frame 5. -/
theorem trail_index_safety_witness :
    1 ≤ (⟨[⟨0, 0⟩, ⟨1, 1⟩], some [], 2, ⟨10, 10⟩⟩ : State).numSamples ∧
    (⟨[⟨0, 0⟩, ⟨1, 1⟩], some [], 2, ⟨10, 10⟩⟩ : State).pathTrace.length
      = (⟨[⟨0, 0⟩, ⟨1, 1⟩], some [], 2, ⟨10, 10⟩⟩ : State).numSamples ∧
    (⟨[⟨0, 0⟩, ⟨1, 1⟩], some [], 2, ⟨10, 10⟩⟩ : State).fourierCoeffs = some [] ∧
    ∃ ops : List FrameOp, animate ⟨[⟨0, 0⟩, ⟨1, 1⟩], some [], 2, ⟨10, 10⟩⟩ 5 1 = some ops :=
  ⟨by decide, rfl, rfl,
    (trail_index_safety ⟨[⟨0, 0⟩, ⟨1, 1⟩], some [], 2, ⟨10, 10⟩⟩ 5 1 [] (by decide) rfl rfl).2.2⟩

theorem sub_emod_sub_emod (a r : ℤ) (h0 : 0 ≤ r) (h1 : r < 2000) :
    (a - (a - r) % 2000) % 2000 = r := by
  have h := Int.emod_add_ediv (a - r) 2000
  have : a - (a - r) % 2000 = r + 2000 * ((a - r) / 2000) := by linarith
  rw [this, Int.add_mul_emod_self_left, Int.emod_eq_of_lt h0 h1]

theorem mem_segmentIndices_2000 (frame c : ℕ) (j : ℤ) :
    some j ∈ segmentIndices 2000 frame c ↔
      ∃ t : ℕ, t ≤ 15 ∧ j = ((frame : ℤ) - (((128 - c : ℕ) : ℤ) * 15 - (t : ℤ))) % 2000 := by
  rw [segmentIndices_eq 2000 frame c (by decide)]
  have hd : (2000 / gradients : ℕ) = 15 := by decide
  have hg : gradients = 128 := rfl
  rw [hd, hg]
  simp only [List.mem_map, List.mem_range, Option.some.injEq, Nat.cast_ofNat]
  constructor
  · rintro ⟨t, ht, h⟩
    refine ⟨t, by omega, ?_⟩
    rw [← h]
    congr 1
    ring
  · rintro ⟨t, ht, h⟩
    refine ⟨t, by omega, ?_⟩
    rw [h]
    congr 1
    ring

theorem segment_offset_of_mem (frame c : ℕ) (j : ℤ) (t : ℕ) (hc : c < 128) (ht : t ≤ 15)
    (h : j = ((frame : ℤ) - (((128 - c : ℕ) : ℤ) * 15 - (t : ℤ))) % 2000) :
    ((frame : ℤ) - j) % 2000 = ((128 - c : ℕ) : ℤ) * 15 - (t : ℤ) := by
  rw [h]
  exact sub_emod_sub_emod _ _ (by omega) (by omega)

/-- Counterexample to C17 as stated: for `N = 2000` and frame 0, index 1 of the trace is in
none of the 128 segments, so the segments do not cover every index. -/
theorem trail_partition_counterexample :
    (0 : ℤ) ≤ 1 ∧ (1 : ℤ) < 2000 ∧
    ∀ c : ℕ, c < gradients → some (1 : ℤ) ∉ segmentIndices 2000 0 c := by
  refine ⟨by decide, by decide, ?_⟩
  intro c hc h
  have hg : gradients = 128 := rfl
  rw [hg] at hc
  obtain ⟨t, ht, h⟩ := (mem_segmentIndices_2000 0 c 1).mp h
  have := segment_offset_of_mem 0 c 1 t hc ht h
  norm_num at this
  omega

/-- Claim C17, amended: with `G = 128` and `diff = floor(N / G)`, segment `c` draws through
the indices `frame - (G - c) * diff, ..., frame - (G - c - 1) * diff` taken modulo `N`. For
`N = 2000` (`diff = 15`) the segments together cover exactly the `G * diff + 1 = 1921`
indices `frame - 1920, ..., frame` modulo `N` (the 79 indices after `frame` are not drawn),
two consecutive segments share their common endpoint and no other index, and the last
segment ends at `frame mod N`. -/
theorem trail_segments (frame : ℕ) :
    (∀ N c : ℕ, 1 ≤ N → c < gradients →
      segmentIndices N frame c
        = (List.range (N / gradients + 1)).map fun (t : ℕ) =>
            some (((frame : ℤ) - ((gradients - c : ℕ) : ℤ) * ((N / gradients : ℕ) : ℤ)
              + (t : ℤ)) % (N : ℤ))) ∧
    (∀ j : ℤ, (∃ c : ℕ, c < gradients ∧ some j ∈ segmentIndices 2000 frame c) ↔
      (0 ≤ j ∧ j < 2000 ∧ ((frame : ℤ) - j) % 2000 ≤ 1920)) ∧
    (∀ (c : ℕ) (j : ℤ), c + 1 < gradients →
      ((some j ∈ segmentIndices 2000 frame c ∧ some j ∈ segmentIndices 2000 frame (c + 1)) ↔
        j = ((frame : ℤ) - ((gradients - (c + 1) : ℕ) : ℤ) * 15) % 2000)) ∧
    (segmentIndices 2000 frame (gradients - 1)).getLast? = some (some ((frame : ℤ) % 2000)) := by
  have hg : gradients = 128 := rfl
  refine ⟨fun N c hN _ => segmentIndices_eq N frame c hN, ?_, ?_, ?_⟩
  · intro j
    constructor
    · rintro ⟨c, hc, h⟩
      rw [hg] at hc
      obtain ⟨t, ht, h⟩ := (mem_segmentIndices_2000 frame c j).mp h
      have hoff := segment_offset_of_mem frame c j t hc ht h
      have hj0 : 0 ≤ j := by rw [h]; exact Int.emod_nonneg _ (by decide)
      have hj1 : j < 2000 := by rw [h]; exact Int.emod_lt_of_pos _ (by decide)
      refine ⟨hj0, hj1, ?_⟩
      rw [hoff]
      omega
    · rintro ⟨h0, h1, h2⟩
      have hj := sub_emod_sub_emod (frame : ℤ) j h0 h1
      have hr0 : 0 ≤ ((frame : ℤ) - j) % 2000 := Int.emod_nonneg _ (by decide)
      generalize ((frame : ℤ) - j) % 2000 = r at hj h2 hr0
      by_cases hr : r = 1920
      · refine ⟨0, by decide, (mem_segmentIndices_2000 frame 0 j).mpr ⟨0, by omega, ?_⟩⟩
        rw [← hj, hr]
        rfl
      · refine ⟨127 - (r / 15).toNat, by rw [hg]; omega,
          (mem_segmentIndices_2000 frame _ j).mpr ⟨(15 - r % 15).toNat, by omega, ?_⟩⟩
        rw [← hj]
        congr 2
        omega
  · intro c j hc
    rw [hg] at hc ⊢
    rw [mem_segmentIndices_2000, mem_segmentIndices_2000]
    constructor
    · rintro ⟨⟨t, ht, h⟩, ⟨t', ht', h'⟩⟩
      have h1 := segment_offset_of_mem frame c j t (by omega) ht h
      have h2 := segment_offset_of_mem frame (c + 1) j t' (by omega) ht' h'
      rw [h1] at h2
      rw [h']
      congr 2
      omega
    · intro h
      refine ⟨⟨15, le_rfl, ?_⟩, ⟨0, by omega, ?_⟩⟩
      · rw [h]
        congr 2
        omega
      · rw [h]
        congr 2
  · rw [segmentIndices_eq 2000 frame _ (by decide)]
    have hd : (2000 / gradients : ℕ) = 15 := by decide
    rw [hd, hg, List.range_succ, List.map_append, List.map_singleton, List.getLast?_append,
      List.getLast?_singleton]
    simp

end Fourier
